import Mathlib

/-!
Verification development for a dependency-graph inspection tool.

The program keeps a directed graph as a mapping from a package identifier
to its ordered list of dependency identifiers, and offers three consumers:
a bounded, filtered breadth-first traversal (`bfs_dependencies`), a
depth-first topological sort with cycle detection (`topological_sort`),
and a Mermaid diagram generator (`generate_mermaid`).  A small loader
(`read_test_graph`) parses a `Package: Dep1,Dep2,...` text format.

All recursive procedures of the program are embedded as fuel-indexed
functions; an explicit, computable fuel bound is proved adequate, so every
definition is executable and the top-level functions are fuel-independent
beyond the bound (which is the formal content of termination).
-/

/-! ## Python string primitives used by the program -/

/-- `leadsWith sub s` : `sub` is a leading run of `s` (Python `str.startswith`
on character lists). -/
def leadsWith : List Char → List Char → Bool
  | [], _ => true
  | _ :: _, [] => false
  | a :: as, b :: bs => a = b && leadsWith as bs

/-- `occursIn sub s` : `sub` occurs contiguously inside `s`
(Python's `sub in s`). -/
def occursIn : List Char → List Char → Bool
  | sub, [] => leadsWith sub []
  | sub, c :: cs => leadsWith sub (c :: cs) || occursIn sub cs

/-- Python `sub in s` on strings. -/
def pyIn (sub s : String) : Bool := occursIn sub.data s.data

/-- Python `str.strip()` : drop leading and trailing whitespace. -/
def pyStrip (l : List Char) : List Char :=
  ((l.dropWhile Char.isWhitespace).reverse.dropWhile Char.isWhitespace).reverse

/-- String version of `pyStrip`. -/
def strStrip (s : String) : String := ⟨pyStrip s.data⟩

/-- Python `line.split(":", 1)` combined with the `":" in line` test:
`none` when no colon occurs, otherwise the parts before and after the
first colon. -/
def splitColon : List Char → Option (List Char × List Char)
  | [] => none
  | c :: cs =>
    if c = ':' then some ([], cs)
    else (splitColon cs).map (fun p => (c :: p.1, p.2))

/-- Python `s.split(",")`. -/
def splitComma : List Char → List (List Char)
  | [] => [[]]
  | c :: cs =>
    if c = ',' then [] :: splitComma cs
    else
      match splitComma cs with
      | [] => [[c]]
      | h :: t => (c :: h) :: t

/-! ## The graph model

A Python `dict` mapping package names to ordered dependency lists,
modelled as an association list with unique keys in insertion order. -/

/-- The in-memory dependency graph: package ↦ ordered dependency list. -/
abbrev Graph := List (String × List String)

/-- `graph.get(node, [])` : the dependency list of `node`, `[]` when `node`
is not a key. -/
def Graph.get (g : Graph) (n : String) : List String :=
  (List.lookup n g).getD []

/-- The keys of the graph in insertion order. -/
def keysList (g : Graph) : List String := g.map Prod.fst

/-- Python `dict` assignment `d[k] = v`: replace the value in place when the
key exists, otherwise append the new binding at the end. -/
def dictSet (d : Graph) (k : String) (v : List String) : Graph :=
  match d with
  | [] => [(k, v)]
  | (k', v') :: rest =>
    if k' = k then (k, v) :: rest else (k', v') :: dictSet rest k v

/-! ## The edge-list loader (`read_test_graph`) -/

/-- One iteration of the `read_test_graph` loop: strip the line, skip blank
lines, `#` comments and colon-free lines, then split `pkg: d1,d2,...`,
stripping every dependency and dropping empty ones. -/
def parseLine (line : String) : Option (String × List String) :=
  let l := pyStrip line.data
  if l = [] then none
  else if leadsWith ['#'] l then none
  else
    match splitColon l with
    | none => none
    | some (p, d) =>
      some (⟨pyStrip p⟩,
        (((splitComma d).map pyStrip).filter (fun x => ¬ x = [])).map
          fun x => (⟨x⟩ : String))

/-- `read_test_graph`, over the list of lines of the file: parse each line
and assign `graph[pkg] = dep_list` (Python `dict` assignment). -/
def read_test_graph (lines : List String) : Graph :=
  lines.foldl
    (fun g line =>
      match parseLine line with
      | none => g
      | some (p, ds) => dictSet g p ds)
    []

/-- Modelled from the spec: the Graph Store's `AddEdge(from, to)` contract
(§4.1), which *appends* `to` to `from`'s dependency sequence and creates the
key at the end when absent.  This is the comparison point for the claim that
the loader is equivalent to repeated `AddEdge`; the loader itself
(`read_test_graph`) is embedded from the source above. -/
def addEdge (g : Graph) (frm tgt : String) : Graph :=
  match g with
  | [] => [(frm, [tgt])]
  | (k, vs) :: rest =>
    if k = frm then (k, vs ++ [tgt]) :: rest
    else (k, vs) :: addEdge rest frm tgt

/-- Modelled from the spec: populating the Graph Store from the per-line
edge-list form by repeated `AddEdge` (§6), one call per dependency of each
parsed line. -/
def loadViaAddEdge (lines : List String) : Graph :=
  lines.foldl
    (fun g line =>
      match parseLine line with
      | none => g
      | some (p, ds) => ds.foldl (fun g' d => addEdge g' p d) g)
    []

/-! ## Reachability -/

/-- Directed reachability along outgoing edges (the reachable subgraph). -/
inductive Reach (g : Graph) : String → String → Prop
  | refl (n : String) : Reach g n n
  | tail {a b c : String} : Reach g a b → c ∈ Graph.get g b → Reach g a c

/-- Reachability with at least one edge (used to state cycles). -/
def ReachPlus (g : Graph) (a b : String) : Prop :=
  ∃ m, m ∈ Graph.get g a ∧ Reach g m b

/-- The reachable subgraph from `s` is acyclic: no reachable node lies on a
nonempty directed cycle. -/
def AcyclicFrom (g : Graph) (s : String) : Prop :=
  ∀ n, Reach g s n → ¬ ReachPlus g n n

/-- The BFS filter condition of the source: the filter string is truthy
(non-empty) and occurs as a substring of the node identifier. -/
def Filtered (filt n : String) : Prop := filt ≠ "" ∧ pyIn filt n = true

instance (filt n : String) : Decidable (Filtered filt n) := by
  unfold Filtered; infer_instance

/-! ## Breadth-first traversal (`bfs_dependencies`)

The loop of the source, with the final `visited` set and the sequence of
dequeued entries exposed as additional observations of the same execution;
`result` is the list the Python function returns. -/

/-- The observations of one BFS run: the returned `result` list, the final
`visited` set, and every `(node, depth)` pair ever popped from the queue. -/
structure BfsOut where
  result : List (String × Nat)
  visited : List String
  dequeues : List (String × Nat)
  deriving DecidableEq, Repr

/-- The BFS loop.  Each iteration pops `(node, depth)`; an already-visited
node is skipped, a filtered node is skipped *without* being marked visited,
otherwise the node is marked, emitted, and (only when `depth < max_depth`)
its dependencies are enqueued at `depth + 1`. -/
def bfsIAux (g : Graph) (maxDepth : Nat) (filt : String) :
    Nat → List (String × Nat) → List String → BfsOut
  | 0, _, v => ⟨[], v, []⟩
  | _ + 1, [], v => ⟨[], v, []⟩
  | fuel + 1, (node, depth) :: rest, v =>
    if node ∈ v then
      let r := bfsIAux g maxDepth filt fuel rest v
      ⟨r.result, r.visited, (node, depth) :: r.dequeues⟩
    else if Filtered filt node then
      let r := bfsIAux g maxDepth filt fuel rest v
      ⟨r.result, r.visited, (node, depth) :: r.dequeues⟩
    else
      let next :=
        if maxDepth ≤ depth then rest
        else rest ++ (Graph.get g node).map (fun d => (d, depth + 1))
      let r := bfsIAux g maxDepth filt fuel next (node :: v)
      ⟨(node, depth) :: r.result, r.visited, (node, depth) :: r.dequeues⟩

/-- Total number of adjacency-list entries of the graph. -/
def totalDeps (g : Graph) : Nat := (g.map (fun e => e.2.length)).sum

/-- Number of graph keys not yet visited. -/
def bfsCompl (g : Graph) (v : List String) : Nat :=
  ((keysList g).toFinset \ v.toFinset).card

/-- Loop measure: every iteration strictly decreases it. -/
def bfsMu (g : Graph) (q : List (String × Nat)) (v : List String) : Nat :=
  q.length + (totalDeps g + 1) * bfsCompl g v

/-- Fuel that provably outlasts the loop from the initial state. -/
def bfsFuel (g : Graph) : Nat := (totalDeps g + 1) * bfsCompl g [] + 2

/-- One full run of `bfs_dependencies` from `start` (result, visited set and
dequeue sequence). -/
def bfsRun (g : Graph) (start : String) (maxDepth : Nat) (filt : String) :
    BfsOut :=
  bfsIAux g maxDepth filt (bfsFuel g) [(start, 0)] []

/-- The list `bfs_dependencies` returns. -/
def bfs_dependencies (g : Graph) (start : String) (maxDepth : Nat)
    (filt : String) : List (String × Nat) :=
  (bfsRun g start maxDepth filt).result

/-- Modelled from the spec: the hypothetical variant discussed in the spec
that *does* mark filtered nodes visited when discarding them ("a filtered
node consumes no visited slot").  Used only to state that the source's
policy never changes the output; the source policy is `bfsIAux`. -/
def bfsMarkAux (g : Graph) (maxDepth : Nat) (filt : String) :
    Nat → List (String × Nat) → List String → BfsOut
  | 0, _, v => ⟨[], v, []⟩
  | _ + 1, [], v => ⟨[], v, []⟩
  | fuel + 1, (node, depth) :: rest, v =>
    if node ∈ v then
      let r := bfsMarkAux g maxDepth filt fuel rest v
      ⟨r.result, r.visited, (node, depth) :: r.dequeues⟩
    else if Filtered filt node then
      let r := bfsMarkAux g maxDepth filt fuel rest (node :: v)
      ⟨r.result, r.visited, (node, depth) :: r.dequeues⟩
    else
      let next :=
        if maxDepth ≤ depth then rest
        else rest ++ (Graph.get g node).map (fun d => (d, depth + 1))
      let r := bfsMarkAux g maxDepth filt fuel next (node :: v)
      ⟨(node, depth) :: r.result, r.visited, (node, depth) :: r.dequeues⟩

/-! ## Topological sort (`topological_sort`)

The recursive `visit` of the source, processed one pending list at a time:
`visitT g fuel nodes s` runs `for node in nodes: visit(node)` in state `s`.
A `ValueError` is modelled as `Except.error (cycleNode, state)`, keeping the
mutable state alive at the moment of the raise (in Python the closure
variables survive the exception); running out of fuel is `none` and is
proved unreachable for the fuel used by `topological_sort`. -/

/-- The mutable state of `topological_sort`: the temporary mark set, the
permanent visited set, and the post-order `result` list. -/
structure TState where
  temp : List String
  visited : List String
  result : List String
  deriving DecidableEq, Repr

/-- `visit` over a pending list of nodes.  Visiting `node`: raise on a
temporary mark, skip a visited node, otherwise mark temporarily, visit all
dependencies, unmark, mark visited and append to the post-order list. -/
def visitT (g : Graph) : Nat → List String → TState → Option (Except (String × TState) TState)
  | _, [], s => some (Except.ok s)
  | 0, _ :: _, _ => none
  | fuel + 1, node :: rest, s =>
    if node ∈ s.temp then some (Except.error (node, s))
    else if node ∈ s.visited then visitT g fuel rest s
    else
      match visitT g fuel (Graph.get g node) ⟨node :: s.temp, s.visited, s.result⟩ with
      | none => none
      | some (Except.error e) => some (Except.error e)
      | some (Except.ok s') =>
        visitT g fuel rest ⟨s'.temp.erase node, node :: s'.visited, s'.result ++ [node]⟩

/-- Every node name occurring in the graph (keys and dependency entries). -/
def allNodes (g : Graph) : List String :=
  g.map Prod.fst ++ (g.map Prod.snd).flatten

/-- Longest adjacency list of the graph. -/
def maxAdj (g : Graph) : Nat := (g.map (fun e => e.2.length)).foldr max 0

/-- Nodes of the universe (plus the start) not yet marked or visited. -/
def tCompl (g : Graph) (start : String) (s : TState) : Nat :=
  (((start :: allNodes g).toFinset) \ (s.temp.toFinset ∪ s.visited.toFinset)).card

/-- Fuel that provably outlasts the recursion of `topological_sort`. -/
def tFuel (g : Graph) (start : String) : Nat :=
  ((start :: allNodes g).toFinset.card) * (maxAdj g + 1) + 2

/-- `topological_sort`: run `visit(start_pkg)`, catch the cycle error at the
top (reporting the closing node), then reverse the post-order list.  The
returned pair is (reversed list, reported cycle node if any). -/
def topological_sort (g : Graph) (start : String) : List String × Option String :=
  match visitT g (tFuel g start) [start] ⟨[], [], []⟩ with
  | some (Except.ok s) => (s.result.reverse, none)
  | some (Except.error (c, s)) => (s.result.reverse, some c)
  | none => ([], none)

/-! ## Mermaid diagram generation (`generate_mermaid`) -/

/-- The mutable state of `generate_mermaid`: the visited set and the
accumulated `lines` list (header included). -/
structure MState where
  visited : List String
  lines : List String
  deriving DecidableEq, Repr

mutual

/-- `visit(node)` of `generate_mermaid`: return at once on a visited node,
otherwise mark visited and walk the dependency list. -/
def visitMNode (g : Graph) : Nat → String → MState → MState
  | 0, _, s => s
  | fuel + 1, node, s =>
    if node ∈ s.visited then s
    else visitMDeps g fuel node (Graph.get g node) ⟨node :: s.visited, s.lines⟩

/-- The `for dep in graph.get(node, [])` loop of `visit`: emit the edge line
unconditionally, then recurse into the dependency. -/
def visitMDeps (g : Graph) : Nat → String → List String → MState → MState
  | 0, _, _, s => s
  | _ + 1, _, [], s => s
  | fuel + 1, parent, dep :: rest, s =>
    let s₁ : MState := ⟨s.visited, s.lines ++ ["    " ++ parent ++ " --> " ++ dep]⟩
    let s₂ := visitMNode g fuel dep s₁
    visitMDeps g fuel parent rest s₂

end

/-- Fuel that provably outlasts the recursion of `generate_mermaid`. -/
def mFuel (g : Graph) (start : String) : Nat :=
  ((start :: allNodes g).toFinset.card) * (maxAdj g + 1) + 2

/-- One run of `generate_mermaid` from `start` (visited set and lines). -/
def mermaidRun (g : Graph) (start : String) : MState :=
  visitMNode g (mFuel g start) start ⟨[], ["graph TD"]⟩

/-- The `lines` list of `generate_mermaid` (header first, then one line per
emitted edge, in discovery order). -/
def mermaidLines (g : Graph) (start : String) : List String :=
  (mermaidRun g start).lines

/-- The diagram text returned by `generate_mermaid`: the lines joined by
newlines. -/
def generate_mermaid (g : Graph) (start : String) : String :=
  String.intercalate "\n" (mermaidLines g start)

/-! ## Basic facts about the BFS loop (valid for every fuel) -/

theorem bfs_visited_mono (g : Graph) (maxD : Nat) (filt : String) :
    ∀ fuel q v x, x ∈ v → x ∈ (bfsIAux g maxD filt fuel q v).visited := by
  intro fuel
  induction fuel with
  | zero => intro q v x hx; simpa [bfsIAux] using hx
  | succ fuel ih =>
    rintro (_ | ⟨⟨node, depth⟩, rest⟩) v x hx
    · simpa [bfsIAux] using hx
    · by_cases hv : node ∈ v
      · simpa [bfsIAux, hv] using ih rest v x hx
      · by_cases hf : Filtered filt node
        · simpa [bfsIAux, hv, hf] using ih rest v x hx
        · simp only [bfsIAux, if_neg hv, if_neg hf]
          exact ih _ _ x (List.mem_cons_of_mem _ hx)

theorem bfs_visited_iff (g : Graph) (maxD : Nat) (filt : String) :
    ∀ fuel q v x,
      x ∈ (bfsIAux g maxD filt fuel q v).visited ↔
        x ∈ v ∨ x ∈ (bfsIAux g maxD filt fuel q v).result.map Prod.fst := by
  intro fuel
  induction fuel with
  | zero => intro q v x; simp [bfsIAux]
  | succ fuel ih =>
    rintro (_ | ⟨⟨node, depth⟩, rest⟩) v x
    · simp [bfsIAux]
    · by_cases hv : node ∈ v
      · simpa [bfsIAux, hv] using ih rest v x
      · by_cases hf : Filtered filt node
        · simpa [bfsIAux, hv, hf] using ih rest v x
        · simp only [bfsIAux, if_neg hv, if_neg hf, List.map_cons, List.mem_cons]
          rw [ih]
          constructor
          · rintro (h | h)
            · rcases List.mem_cons.mp h with h | h
              · exact Or.inr (Or.inl h)
              · exact Or.inl h
            · exact Or.inr (Or.inr h)
          · rintro (h | h | h)
            · exact Or.inl (List.mem_cons_of_mem _ h)
            · exact Or.inl (by simp [h])
            · exact Or.inr h

theorem bfs_result_nodup (g : Graph) (maxD : Nat) (filt : String) :
    ∀ fuel q v,
      ((bfsIAux g maxD filt fuel q v).result.map Prod.fst).Nodup ∧
        ∀ x ∈ (bfsIAux g maxD filt fuel q v).result.map Prod.fst, x ∉ v := by
  intro fuel
  induction fuel with
  | zero => intro q v; simp [bfsIAux]
  | succ fuel ih =>
    rintro (_ | ⟨⟨node, depth⟩, rest⟩) v
    · simp [bfsIAux]
    · by_cases hv : node ∈ v
      · simpa [bfsIAux, hv] using ih rest v
      · by_cases hf : Filtered filt node
        · simpa [bfsIAux, hv, hf] using ih rest v
        · simp only [bfsIAux, if_neg hv, if_neg hf, List.map_cons, List.nodup_cons]
          obtain ⟨hnd, hout⟩ := ih (if maxD ≤ depth then rest
            else rest ++ (Graph.get g node).map (fun d => (d, depth + 1))) (node :: v)
          refine ⟨⟨fun hmem => ?_, hnd⟩, ?_⟩
          · exact hout node hmem (List.mem_cons_self _ _)
          · intro x hx
            rcases List.mem_cons.mp hx with h | h
            · subst h; exact hv
            · intro hxv
              exact hout x h (List.mem_cons_of_mem _ hxv)

theorem bfs_result_unfiltered (g : Graph) (maxD : Nat) (filt : String) :
    ∀ fuel q v p, p ∈ (bfsIAux g maxD filt fuel q v).result → ¬ Filtered filt p.1 := by
  intro fuel
  induction fuel with
  | zero => intro q v p hp; simp [bfsIAux] at hp
  | succ fuel ih =>
    rintro (_ | ⟨⟨node, depth⟩, rest⟩) v p hp
    · simp [bfsIAux] at hp
    · by_cases hv : node ∈ v
      · exact ih rest v p (by simpa [bfsIAux, hv] using hp)
      · by_cases hf : Filtered filt node
        · exact ih rest v p (by simpa [bfsIAux, hv, hf] using hp)
        · simp only [bfsIAux, if_neg hv, if_neg hf, List.mem_cons] at hp
          rcases hp with h | h
          · subst h; exact hf
          · exact ih _ _ p h

theorem bfs_dequeued_visited (g : Graph) (maxD : Nat) (filt : String) :
    ∀ fuel q v p, p ∈ (bfsIAux g maxD filt fuel q v).dequeues →
      ¬ Filtered filt p.1 → p.1 ∈ (bfsIAux g maxD filt fuel q v).visited := by
  intro fuel
  induction fuel with
  | zero => intro q v p hp; simp [bfsIAux] at hp
  | succ fuel ih =>
    rintro (_ | ⟨⟨node, depth⟩, rest⟩) v p hp hnf
    · simp [bfsIAux] at hp
    · by_cases hv : node ∈ v
      · simp only [bfsIAux, if_pos hv, List.mem_cons] at hp ⊢
        rcases hp with h | h
        · subst h; exact bfs_visited_mono g maxD filt fuel rest v _ hv
        · exact ih rest v p h hnf
      · by_cases hf : Filtered filt node
        · simp only [bfsIAux, if_neg hv, if_pos hf, List.mem_cons] at hp ⊢
          rcases hp with h | h
          · exact absurd (by rw [h] at hnf ⊢; exact hf) hnf
          · exact ih rest v p h hnf
        · simp only [bfsIAux, if_neg hv, if_neg hf, List.mem_cons] at hp ⊢
          rcases hp with h | h
          · subst h
            exact bfs_visited_mono g maxD filt fuel _ _ _ (List.mem_cons_self _ _)
          · exact ih _ _ p h hnf

theorem bfs_result_sub_dequeues (g : Graph) (maxD : Nat) (filt : String) :
    ∀ fuel q v p, p ∈ (bfsIAux g maxD filt fuel q v).result →
      p ∈ (bfsIAux g maxD filt fuel q v).dequeues := by
  intro fuel
  induction fuel with
  | zero => intro q v p hp; simp [bfsIAux] at hp
  | succ fuel ih =>
    rintro (_ | ⟨⟨node, depth⟩, rest⟩) v p hp
    · simp [bfsIAux] at hp
    · by_cases hv : node ∈ v
      · simp only [bfsIAux, if_pos hv, List.mem_cons] at hp ⊢
        exact Or.inr (ih rest v p hp)
      · by_cases hf : Filtered filt node
        · simp only [bfsIAux, if_neg hv, if_pos hf, List.mem_cons] at hp ⊢
          exact Or.inr (ih rest v p hp)
        · simp only [bfsIAux, if_neg hv, if_neg hf, List.mem_cons] at hp ⊢
          rcases hp with h | h
          · exact Or.inl h
          · exact Or.inr (ih _ _ p h)

theorem bfs_depth_lb (g : Graph) (maxD : Nat) (filt : String) :
    ∀ fuel q v c, (∀ p ∈ q, c ≤ p.2) →
      ∀ p ∈ (bfsIAux g maxD filt fuel q v).result, c ≤ p.2 := by
  intro fuel
  induction fuel with
  | zero => intro q v c _ p hp; simp [bfsIAux] at hp
  | succ fuel ih =>
    rintro (_ | ⟨⟨node, depth⟩, rest⟩) v c hq p hp
    · simp [bfsIAux] at hp
    · by_cases hv : node ∈ v
      · exact ih rest v c (fun p hp => hq p (List.mem_cons_of_mem _ hp)) p
          (by simpa [bfsIAux, hv] using hp)
      · by_cases hf : Filtered filt node
        · exact ih rest v c (fun p hp => hq p (List.mem_cons_of_mem _ hp)) p
            (by simpa [bfsIAux, hv, hf] using hp)
        · simp only [bfsIAux, if_neg hv, if_neg hf, List.mem_cons] at hp
          rcases hp with h | h
          · subst h; exact hq _ (List.mem_cons_self _ _)
          · refine ih _ _ c ?_ p h
            intro p' hp'
            by_cases hd : maxD ≤ depth
            · rw [if_pos hd] at hp'
              exact hq p' (List.mem_cons_of_mem _ hp')
            · rw [if_neg hd] at hp'
              rcases List.mem_append.mp hp' with h' | h'
              · exact hq p' (List.mem_cons_of_mem _ h')
              · rcases List.mem_map.mp h' with ⟨d, _, hd'⟩
                subst hd'
                exact le_trans (hq _ (List.mem_cons_self _ _)) (Nat.le_succ _)

theorem reach_trans {g : Graph} {a b c : String} (h1 : Reach g a b)
    (h2 : Reach g b c) : Reach g a c := by
  induction h2 with
  | refl => exact h1
  | tail _ hmem ih => exact Reach.tail ih hmem

theorem bfs_sound (g : Graph) (maxD : Nat) (filt : String) :
    ∀ fuel q v p, p ∈ (bfsIAux g maxD filt fuel q v).result →
      ∃ m e, (m, e) ∈ q ∧ Reach g m p.1 := by
  intro fuel
  induction fuel with
  | zero => intro q v p hp; simp [bfsIAux] at hp
  | succ fuel ih =>
    rintro (_ | ⟨⟨node, depth⟩, rest⟩) v p hp
    · simp [bfsIAux] at hp
    · by_cases hv : node ∈ v
      · obtain ⟨m, e, hm, hr⟩ := ih rest v p (by simpa [bfsIAux, hv] using hp)
        exact ⟨m, e, List.mem_cons_of_mem _ hm, hr⟩
      · by_cases hf : Filtered filt node
        · obtain ⟨m, e, hm, hr⟩ := ih rest v p (by simpa [bfsIAux, hv, hf] using hp)
          exact ⟨m, e, List.mem_cons_of_mem _ hm, hr⟩
        · simp only [bfsIAux, if_neg hv, if_neg hf, List.mem_cons] at hp
          rcases hp with h | h
          · subst h
            exact ⟨node, depth, List.mem_cons_self _ _, Reach.refl node⟩
          · obtain ⟨m, e, hm, hr⟩ := ih _ _ p h
            by_cases hd : maxD ≤ depth
            · rw [if_pos hd] at hm
              exact ⟨m, e, List.mem_cons_of_mem _ hm, hr⟩
            · rw [if_neg hd] at hm
              rcases List.mem_append.mp hm with h' | h'
              · exact ⟨m, e, List.mem_cons_of_mem _ h', hr⟩
              · rcases List.mem_map.mp h' with ⟨d, hd', he⟩
                have hmd : m = d := by
                  have := congrArg Prod.fst he; simpa using this.symm
                refine ⟨node, depth, List.mem_cons_self _ _, ?_⟩
                have hnd : Reach g node m := by
                  rw [hmd]; exact Reach.tail (Reach.refl node) hd'
                exact reach_trans hnd hr

theorem bfs_parent (g : Graph) (maxD : Nat) (filt : String) :
    ∀ fuel q v p, p ∈ (bfsIAux g maxD filt fuel q v).dequeues →
      p ∈ q ∨ ∃ a, a ∈ (bfsIAux g maxD filt fuel q v).result ∧ a.2 < maxD ∧
        p.1 ∈ Graph.get g a.1 ∧ p.2 = a.2 + 1 := by
  intro fuel
  induction fuel with
  | zero => intro q v p hp; simp [bfsIAux] at hp
  | succ fuel ih =>
    rintro (_ | ⟨⟨node, depth⟩, rest⟩) v p hp
    · simp [bfsIAux] at hp
    · by_cases hv : node ∈ v
      · simp only [bfsIAux, if_pos hv, List.mem_cons] at hp ⊢
        rcases hp with h | h
        · exact Or.inl (Or.inl h)
        · rcases ih rest v p h with h' | ⟨a, ha, hlt, hmem, he⟩
          · exact Or.inl (Or.inr h')
          · exact Or.inr ⟨a, ha, hlt, hmem, he⟩
      · by_cases hf : Filtered filt node
        · simp only [bfsIAux, if_neg hv, if_pos hf, List.mem_cons] at hp ⊢
          rcases hp with h | h
          · exact Or.inl (Or.inl h)
          · rcases ih rest v p h with h' | ⟨a, ha, hlt, hmem, he⟩
            · exact Or.inl (Or.inr h')
            · exact Or.inr ⟨a, ha, hlt, hmem, he⟩
        · simp only [bfsIAux, if_neg hv, if_neg hf, List.mem_cons] at hp ⊢
          rcases hp with h | h
          · exact Or.inl (Or.inl h)
          · rcases ih _ _ p h with h' | ⟨a, ha, hlt, hmem, he⟩
            · by_cases hd : maxD ≤ depth
              · rw [if_pos hd] at h'
                exact Or.inl (Or.inr h')
              · rw [if_neg hd] at h'
                rcases List.mem_append.mp h' with h'' | h''
                · exact Or.inl (Or.inr h'')
                · rcases List.mem_map.mp h'' with ⟨d, hd', he⟩
                  refine Or.inr ⟨(node, depth), Or.inl rfl, Nat.lt_of_not_le hd, ?_, ?_⟩
                  · have : p.1 = d := by rw [← he]
                    rw [this]; exact hd'
                  · rw [← he]
            · exact Or.inr ⟨a, Or.inr ha, hlt, hmem, he⟩

/-! ## The BFS measure and fuel adequacy -/

theorem lookup_mem {g : Graph} {n : String} {ds : List String}
    (h : List.lookup n g = some ds) : (n, ds) ∈ g := by
  induction g with
  | nil => simp [List.lookup] at h
  | cons e rest ih =>
    rw [List.lookup] at h
    split at h
    · rename_i hbe
      have h1 : n = e.1 := by simpa using hbe
      have h2 : e.2 = ds := by injection h
      have : (n, ds) = e := by cases e; simp_all
      rw [this]
      exact List.mem_cons_self _ _
    · exact List.mem_cons_of_mem _ (ih h)

theorem get_length_le_totalDeps (g : Graph) (n : String) :
    (Graph.get g n).length ≤ totalDeps g := by
  unfold Graph.get
  cases hl : List.lookup n g with
  | none => simp
  | some ds =>
    simp only [Option.getD_some]
    have hm : (n, ds) ∈ g := lookup_mem hl
    have : ds.length ∈ g.map (fun e => e.2.length) :=
      List.mem_map.mpr ⟨(n, ds), hm, rfl⟩
    exact List.single_le_sum (by intro x _; exact Nat.zero_le x) _ this

theorem mem_keys_of_lookup {g : Graph} {n : String} {ds : List String}
    (h : List.lookup n g = some ds) : n ∈ (keysList g).toFinset := by
  rw [List.mem_toFinset]
  exact List.mem_map.mpr ⟨(n, ds), lookup_mem h, rfl⟩

theorem bfsCompl_cons_le (g : Graph) (v : List String) (n : String) :
    bfsCompl g (n :: v) ≤ bfsCompl g v := by
  unfold bfsCompl
  apply Finset.card_le_card
  apply Finset.sdiff_subset_sdiff (le_refl _)
  intro x hx
  simp only [List.toFinset_cons, Finset.mem_insert]
  exact Or.inr hx

theorem bfsCompl_cons_lt (g : Graph) (v : List String) (n : String)
    (hk : n ∈ (keysList g).toFinset) (hv : n ∉ v) :
    bfsCompl g (n :: v) + 1 = bfsCompl g v := by
  unfold bfsCompl
  rw [List.toFinset_cons, Finset.sdiff_insert,
    Finset.card_erase_of_mem (Finset.mem_sdiff.mpr ⟨hk, by simpa using hv⟩)]
  have hpos : 0 < ((keysList g).toFinset \ v.toFinset).card :=
    Finset.card_pos.mpr ⟨n, Finset.mem_sdiff.mpr ⟨hk, by simpa using hv⟩⟩
  omega

theorem bfsMu_skip (g : Graph) (q : List (String × Nat)) (v : List String)
    (p : String × Nat) : bfsMu g q v < bfsMu g (p :: q) v := by
  unfold bfsMu
  simp [Nat.lt_succ_self]

theorem bfsMu_emit (g : Graph) (rest : List (String × Nat)) (v : List String)
    (node : String) (depth maxD : Nat) (hv : node ∉ v) :
    bfsMu g (if maxD ≤ depth then rest
      else rest ++ (Graph.get g node).map (fun d => (d, depth + 1))) (node :: v)
      < bfsMu g ((node, depth) :: rest) v := by
  unfold bfsMu
  have hle := bfsCompl_cons_le g v node
  by_cases hd : maxD ≤ depth
  · rw [if_pos hd]
    simp only [List.length_cons]
    have := Nat.mul_le_mul_left (totalDeps g + 1) hle
    omega
  · rw [if_neg hd]
    rw [List.length_append, List.length_map]
    cases hl : List.lookup node g with
    | none =>
      have hget : Graph.get g node = [] := by unfold Graph.get; rw [hl]; rfl
      rw [hget]
      simp only [List.length_nil, List.length_cons]
      have := Nat.mul_le_mul_left (totalDeps g + 1) hle
      omega
    | some ds =>
      have hk : node ∈ (keysList g).toFinset := mem_keys_of_lookup hl
      have hc := bfsCompl_cons_lt g v node hk hv
      have hlen := get_length_le_totalDeps g node
      simp only [List.length_cons]
      have hmul : (totalDeps g + 1) * bfsCompl g v =
          (totalDeps g + 1) * bfsCompl g (node :: v) + (totalDeps g + 1) := by
        rw [← hc]; ring
      omega

theorem bfsIAux_step (g : Graph) (maxD : Nat) (filt : String) :
    ∀ fuel q v, bfsMu g q v ≤ fuel →
      bfsIAux g maxD filt (fuel + 1) q v = bfsIAux g maxD filt fuel q v := by
  intro fuel
  induction fuel with
  | zero =>
    rintro (_ | ⟨⟨node, depth⟩, rest⟩) v hmu
    · simp [bfsIAux]
    · exfalso
      unfold bfsMu at hmu
      simp at hmu
  | succ fuel ih =>
    rintro (_ | ⟨⟨node, depth⟩, rest⟩) v hmu
    · simp [bfsIAux]
    · by_cases hv : node ∈ v
      · have h1 : bfsMu g rest v ≤ fuel :=
          Nat.le_of_lt_succ (Nat.lt_of_lt_of_le (bfsMu_skip g rest v _) hmu)
        simp only [bfsIAux, if_pos hv, ih rest v h1]
      · by_cases hf : Filtered filt node
        · have h1 : bfsMu g rest v ≤ fuel :=
            Nat.le_of_lt_succ (Nat.lt_of_lt_of_le (bfsMu_skip g rest v _) hmu)
          simp only [bfsIAux, if_neg hv, if_pos hf, ih rest v h1]
        · have h1 := bfsMu_emit g rest v node depth maxD hv
          have h2 : bfsMu g (if maxD ≤ depth then rest
              else rest ++ (Graph.get g node).map (fun d => (d, depth + 1)))
              (node :: v) ≤ fuel := Nat.le_of_lt_succ (Nat.lt_of_lt_of_le h1 hmu)
          simp only [bfsIAux, if_neg hv, if_neg hf, ih _ _ h2]

theorem bfsIAux_stab (g : Graph) (maxD : Nat) (filt : String)
    (fuel : Nat) (q : List (String × Nat)) (v : List String)
    (hmu : bfsMu g q v ≤ fuel) :
    ∀ fuel', fuel ≤ fuel' →
      bfsIAux g maxD filt fuel' q v = bfsIAux g maxD filt fuel q v := by
  intro fuel' hle
  obtain ⟨k, rfl⟩ := Nat.exists_eq_add_of_le hle
  induction k with
  | zero => rfl
  | succ k ih =>
    have heq : fuel + (k + 1) = (fuel + k) + 1 := by ring
    rw [heq, bfsIAux_step g maxD filt (fuel + k) q v
      (le_trans hmu (Nat.le_add_right _ _))]
    exact ih (Nat.le_add_right _ _)

/-! ## Queue shape invariant and BFS liveness/closure -/

/-- BFS queue invariant: depths are non-decreasing and any two queue depths
differ by at most one. -/
def QInv (q : List (String × Nat)) : Prop :=
  List.Pairwise (fun p₁ p₂ => p₁.2 ≤ p₂.2) q ∧
    ∀ p ∈ q, ∀ p' ∈ q, p.2 ≤ p'.2 + 1

theorem qinv_tail {p : String × Nat} {rest : List (String × Nat)}
    (h : QInv (p :: rest)) : QInv rest := by
  obtain ⟨hp, hb⟩ := h
  exact ⟨(List.pairwise_cons.mp hp).2,
    fun a ha a' ha' => hb a (List.mem_cons_of_mem _ ha) a' (List.mem_cons_of_mem _ ha')⟩

theorem qinv_expand {node : String} {depth : Nat} {rest : List (String × Nat)}
    (deps : List String) (h : QInv ((node, depth) :: rest)) :
    QInv (rest ++ deps.map (fun d => (d, depth + 1))) := by
  obtain ⟨hp, hb⟩ := h
  obtain ⟨hhead, hrest⟩ := List.pairwise_cons.mp hp
  have hdep : ∀ p ∈ deps.map (fun d => (d, depth + 1)), p.2 = depth + 1 := by
    intro p hp'
    rcases List.mem_map.mp hp' with ⟨d, _, he⟩
    rw [← he]
  constructor
  · rw [List.pairwise_append]
    refine ⟨hrest, ?_, ?_⟩
    · rw [List.pairwise_map]
      exact List.pairwise_of_forall (fun _ _ => le_refl _)
    · intro a ha b hb'
      rw [hdep b hb']
      exact le_trans
        (hb a (List.mem_cons_of_mem _ ha) (node, depth) (List.mem_cons_self _ _)) (le_refl _)
  · intro p hp' p' hp''
    rcases List.mem_append.mp hp' with h1 | h1 <;>
      rcases List.mem_append.mp hp'' with h2 | h2
    · exact hb p (List.mem_cons_of_mem _ h1) p' (List.mem_cons_of_mem _ h2)
    · rw [hdep p' h2]
      have : p.2 ≤ depth + 1 :=
        hb p (List.mem_cons_of_mem _ h1) (node, depth) (List.mem_cons_self _ _)
      omega
    · rw [hdep p h1]
      have : depth ≤ p'.2 := hhead p' h2
      omega
    · rw [hdep p h1, hdep p' h2]
      omega

theorem bfs_live (g : Graph) (maxD : Nat) (filt : String) :
    ∀ fuel q v, bfsMu g q v < fuel → QInv q →
      ∀ n d, (n, d) ∈ q → ¬ Filtered filt n →
        n ∈ v ∨ ∃ d' ≤ d, (n, d') ∈ (bfsIAux g maxD filt fuel q v).result := by
  intro fuel
  induction fuel with
  | zero => intro q v hmu; omega
  | succ fuel ih =>
    rintro (_ | ⟨⟨node, depth⟩, rest⟩) v hmu hq n d hmem hnf
    · simp at hmem
    · have hmu' : bfsMu g rest v < fuel :=
        Nat.lt_of_lt_of_le (bfsMu_skip g rest v _) (Nat.lt_succ_iff.mp hmu)
      by_cases hv : node ∈ v
      · rcases List.mem_cons.mp hmem with h | h
        · rw [Prod.mk.injEq] at h
          exact Or.inl (h.1 ▸ hv)
        · have := ih rest v hmu' (qinv_tail hq) n d h hnf
          simpa [bfsIAux, hv] using this
      · by_cases hf : Filtered filt node
        · rcases List.mem_cons.mp hmem with h | h
          · rw [Prod.mk.injEq] at h
            exact absurd (h.1 ▸ hf) hnf
          · have := ih rest v hmu' (qinv_tail hq) n d h hnf
            simpa [bfsIAux, hf, hv] using this
        · have hmu'' : bfsMu g (if maxD ≤ depth then rest
              else rest ++ (Graph.get g node).map (fun d => (d, depth + 1)))
              (node :: v) < fuel :=
            Nat.lt_of_lt_of_le (bfsMu_emit g rest v node depth maxD hv)
              (Nat.lt_succ_iff.mp hmu)
          have hq' : QInv (if maxD ≤ depth then rest
              else rest ++ (Graph.get g node).map (fun d => (d, depth + 1))) := by
            by_cases hd : maxD ≤ depth
            · rw [if_pos hd]; exact qinv_tail hq
            · rw [if_neg hd]; exact qinv_expand _ hq
          simp only [bfsIAux, if_neg hv, if_neg hf]
          rcases List.mem_cons.mp hmem with h | h
          · rw [Prod.mk.injEq] at h
            exact Or.inr ⟨d, le_refl _, by
              rw [h.1, h.2]; exact List.mem_cons_self _ _⟩
          · have hrest : (n, d) ∈ (if maxD ≤ depth then rest
                else rest ++ (Graph.get g node).map (fun d => (d, depth + 1))) := by
              by_cases hd : maxD ≤ depth
              · rw [if_pos hd]; exact h
              · rw [if_neg hd]; exact List.mem_append_left _ h
            rcases ih _ (node :: v) hmu'' hq' n d hrest hnf with h' | ⟨d', hd', hm'⟩
            · rcases List.mem_cons.mp h' with h'' | h''
              · subst h''
                refine Or.inr ⟨depth, ?_, List.mem_cons_self _ _⟩
                exact (List.pairwise_cons.mp hq.1).1 (n, d) h
              · exact Or.inl h''
            · exact Or.inr ⟨d', hd', List.mem_cons_of_mem _ hm'⟩

theorem bfs_closure (g : Graph) (maxD : Nat) (filt : String) :
    ∀ fuel q v, bfsMu g q v < fuel → QInv q →
      ∀ n d, (n, d) ∈ (bfsIAux g maxD filt fuel q v).result → d < maxD →
        ∀ m, m ∈ Graph.get g n → ¬ Filtered filt m →
          m ∈ v ∨ ∃ d' ≤ d + 1, (m, d') ∈ (bfsIAux g maxD filt fuel q v).result := by
  intro fuel
  induction fuel with
  | zero => intro q v hmu; omega
  | succ fuel ih =>
    rintro (_ | ⟨⟨node, depth⟩, rest⟩) v hmu hq n d hnd hd m hm hnf
    · simp [bfsIAux] at hnd
    · have hmu' : bfsMu g rest v < fuel :=
        Nat.lt_of_lt_of_le (bfsMu_skip g rest v _) (Nat.lt_succ_iff.mp hmu)
      by_cases hv : node ∈ v
      · have h' := ih rest v hmu' (qinv_tail hq) n d
          (by simpa [bfsIAux, hv] using hnd) hd m hm hnf
        simpa [bfsIAux, hv] using h'
      · by_cases hf : Filtered filt node
        · have h' := ih rest v hmu' (qinv_tail hq) n d
            (by simpa [bfsIAux, hv, hf] using hnd) hd m hm hnf
          simpa [bfsIAux, hv, hf] using h'
        · have hmu'' : bfsMu g (if maxD ≤ depth then rest
              else rest ++ (Graph.get g node).map (fun d => (d, depth + 1)))
              (node :: v) < fuel :=
            Nat.lt_of_lt_of_le (bfsMu_emit g rest v node depth maxD hv)
              (Nat.lt_succ_iff.mp hmu)
          have hq' : QInv (if maxD ≤ depth then rest
              else rest ++ (Graph.get g node).map (fun d => (d, depth + 1))) := by
            by_cases hdd : maxD ≤ depth
            · rw [if_pos hdd]; exact qinv_tail hq
            · rw [if_neg hdd]; exact qinv_expand _ hq
          simp only [bfsIAux, if_neg hv, if_neg hf, List.mem_cons] at hnd ⊢
          rcases hnd with h | h
          · -- the head (node, depth) itself was emitted; (n, d) = (node, depth)
            rw [Prod.mk.injEq] at h
            obtain ⟨h1, h2⟩ := h
            have hdd : ¬ maxD ≤ depth := by omega
            have hmem : (m, depth + 1) ∈ (if maxD ≤ depth then rest
                else rest ++ (Graph.get g node).map (fun d => (d, depth + 1))) := by
              rw [if_neg hdd]
              refine List.mem_append_right _ ?_
              exact List.mem_map.mpr ⟨m, by rw [← h1]; exact hm, rfl⟩
            rcases bfs_live g maxD filt fuel _ (node :: v) hmu'' hq' m (depth + 1)
                hmem hnf with h' | ⟨d', hd', hm'⟩
            · rcases List.mem_cons.mp h' with h'' | h''
              · subst h''
                exact Or.inr ⟨depth, by omega, Or.inl rfl⟩
              · exact Or.inl h''
            · exact Or.inr ⟨d', by omega, Or.inr hm'⟩
          · -- (n, d) lies in the recursive output
            rcases ih _ (node :: v) hmu'' hq' n d h hd m hm hnf with h' | ⟨d', hd', hm'⟩
            · rcases List.mem_cons.mp h' with h'' | h''
              · refine Or.inr ⟨depth, ?_, Or.inl (by rw [h''])⟩
                have hdlb : ∀ p ∈ (if maxD ≤ depth then rest
                    else rest ++ (Graph.get g node).map (fun d => (d, depth + 1))),
                    depth ≤ p.2 := by
                  intro p hp
                  by_cases hdd : maxD ≤ depth
                  · rw [if_pos hdd] at hp
                    exact (List.pairwise_cons.mp hq.1).1 p hp
                  · rw [if_neg hdd] at hp
                    rcases List.mem_append.mp hp with h3 | h3
                    · exact (List.pairwise_cons.mp hq.1).1 p h3
                    · rcases List.mem_map.mp h3 with ⟨x, _, hx⟩
                      rw [← hx]; exact Nat.le_succ _
                have := bfs_depth_lb g maxD filt fuel _ (node :: v) depth hdlb (n, d) h
                omega
              · exact Or.inl h''
            · exact Or.inr ⟨d', hd', Or.inr hm'⟩

/-! ## Filtered paths and BFS completeness -/

/-- A directed path all of whose nodes escape the filter; `FPath g filt a b k`
means `b` is reachable from `a` in exactly `k` hops through unfiltered
nodes only (this is the "ignoring filtered nodes and their subtrees"
reachability of the spec). -/
inductive FPath (g : Graph) (filt : String) : String → String → Nat → Prop
  | refl (n : String) : ¬ Filtered filt n → FPath g filt n n 0
  | step {a b c : String} {k : Nat} : FPath g filt a b k → c ∈ Graph.get g b →
      ¬ Filtered filt c → FPath g filt a c (k + 1)

theorem bfsMu_init_lt (g : Graph) (s : String) :
    bfsMu g [(s, 0)] [] < bfsFuel g := by
  unfold bfsMu bfsFuel
  simp only [List.length_cons, List.length_nil]
  omega

theorem qinv_init (s : String) : QInv [(s, 0)] := by
  constructor
  · simp
  · intro p hp p' hp'
    simp only [List.mem_singleton] at hp hp'
    rw [hp, hp']
    simp

theorem bfs_complete (g : Graph) (maxD : Nat) (filt : String) (s n : String)
    (k : Nat) (hp : FPath g filt s n k) :
    k ≤ maxD → ∃ d ≤ k, (n, d) ∈ bfs_dependencies g s maxD filt := by
  induction hp with
  | refl hnf =>
    intro _
    have h := bfs_live g maxD filt (bfsFuel g) [(s, 0)] [] (bfsMu_init_lt g s)
      (qinv_init s) s 0 (List.mem_cons_self _ _) hnf
    rcases h with h | ⟨d, hd, hm⟩
    · simp at h
    · exact ⟨d, hd, hm⟩
  | step hpath hmem hnf ih =>
    intro hk
    rename_i b c k'
    have hk' : k' ≤ maxD := by omega
    obtain ⟨d, hd, hm⟩ := ih hk'
    have hdm : d < maxD := by omega
    have h := bfs_closure g maxD filt (bfsFuel g) [(s, 0)] [] (bfsMu_init_lt g s)
      (qinv_init s) b d hm hdm c hmem hnf
    rcases h with h | ⟨d', hd', hm'⟩
    · simp at h
    · exact ⟨d', by omega, hm'⟩

/-! ## The filtered-skip policy never changes the output (C2) -/

theorem bfs_mark_eq (g : Graph) (maxD : Nat) (filt : String) :
    ∀ fuel q v v', (∀ x ∈ v, x ∈ v') → (∀ x ∈ v', x ∉ v → Filtered filt x) →
      (bfsIAux g maxD filt fuel q v).result =
        (bfsMarkAux g maxD filt fuel q v').result := by
  intro fuel
  induction fuel with
  | zero => intro q v v' _ _; simp [bfsIAux, bfsMarkAux]
  | succ fuel ih =>
    rintro (_ | ⟨⟨node, depth⟩, rest⟩) v v' hsub hflt
    · simp [bfsIAux, bfsMarkAux]
    · by_cases hv : node ∈ v
      · have hv' : node ∈ v' := hsub node hv
        simpa [bfsIAux, bfsMarkAux, hv, hv'] using ih rest v v' hsub hflt
      · by_cases hv' : node ∈ v'
        · have hf : Filtered filt node := hflt node hv' hv
          simpa [bfsIAux, bfsMarkAux, hv, hv', hf] using ih rest v v' hsub hflt
        · by_cases hf : Filtered filt node
          · have hflt' : ∀ x ∈ node :: v', x ∉ v → Filtered filt x := by
              intro x hx hxv
              rcases List.mem_cons.mp hx with h | h
              · rw [h]; exact hf
              · exact hflt x h hxv
            have hsub' : ∀ x ∈ v, x ∈ node :: v' :=
              fun x hx => List.mem_cons_of_mem _ (hsub x hx)
            simpa [bfsIAux, bfsMarkAux, hv, hv', hf] using
              ih rest v (node :: v') hsub' hflt'
          · have hsub' : ∀ x ∈ node :: v, x ∈ node :: v' := by
              intro x hx
              rcases List.mem_cons.mp hx with h | h
              · rw [h]; exact List.mem_cons_self _ _
              · exact List.mem_cons_of_mem _ (hsub x h)
            have hflt' : ∀ x ∈ node :: v', x ∉ node :: v → Filtered filt x := by
              intro x hx hxv
              rcases List.mem_cons.mp hx with h | h
              · exact absurd (h ▸ List.mem_cons_self node v) hxv
              · exact hflt x h (fun hc => hxv (List.mem_cons_of_mem _ hc))
            simpa [bfsIAux, bfsMarkAux, hv, hv', hf] using
              ih _ (node :: v) (node :: v') hsub' hflt'

/-! ## Depth-limited nodes never contribute edges (C5) -/

theorem bfs_graph_agree (g g' : Graph) (maxD : Nat) (filt : String) (n : String)
    (hag : ∀ m, m ≠ n → Graph.get g m = Graph.get g' m) :
    ∀ fuel q v, n ∈ v →
      bfsIAux g maxD filt fuel q v = bfsIAux g' maxD filt fuel q v := by
  intro fuel
  induction fuel with
  | zero => intro q v _; simp [bfsIAux]
  | succ fuel ih =>
    rintro (_ | ⟨⟨node, depth⟩, rest⟩) v hn
    · simp [bfsIAux]
    · by_cases hv : node ∈ v
      · simp only [bfsIAux, if_pos hv, ih rest v hn]
      · by_cases hf : Filtered filt node
        · simp only [bfsIAux, if_neg hv, if_pos hf, ih rest v hn]
        · have hne : node ≠ n := fun h => hv (h ▸ hn)
          simp only [bfsIAux, if_neg hv, if_neg hf, hag node hne,
            ih _ (node :: v) (List.mem_cons_of_mem _ hn)]

theorem bfs_prune_aux (g g' : Graph) (maxD : Nat) (filt : String) (n : String)
    (hag : ∀ m, m ≠ n → Graph.get g m = Graph.get g' m) :
    ∀ fuel q v,
      (∀ d, (n, d) ∈ (bfsIAux g maxD filt fuel q v).result → maxD ≤ d) →
      bfsIAux g maxD filt fuel q v = bfsIAux g' maxD filt fuel q v := by
  intro fuel
  induction fuel with
  | zero => intro q v _; simp [bfsIAux]
  | succ fuel ih =>
    rintro (_ | ⟨⟨node, depth⟩, rest⟩) v hres
    · simp [bfsIAux]
    · by_cases hv : node ∈ v
      · have hres' : ∀ d, (n, d) ∈ (bfsIAux g maxD filt fuel rest v).result → maxD ≤ d := by
          intro d hd
          exact hres d (by simpa [bfsIAux, hv] using hd)
        simp only [bfsIAux, if_pos hv, ih rest v hres']
      · by_cases hf : Filtered filt node
        · have hres' : ∀ d, (n, d) ∈ (bfsIAux g maxD filt fuel rest v).result → maxD ≤ d := by
            intro d hd
            exact hres d (by simpa [bfsIAux, hv, hf] using hd)
          simp only [bfsIAux, if_neg hv, if_pos hf, ih rest v hres']
        · by_cases hne : node = n
          · subst hne
            have hd : maxD ≤ depth := by
              apply hres depth
              simp [bfsIAux, hv, hf]
            simp only [bfsIAux, if_neg hv, if_neg hf, if_pos hd]
            rw [bfs_graph_agree g g' maxD filt node hag fuel rest (node :: v)
              (List.mem_cons_self _ _)]
          · have hgg : Graph.get g node = Graph.get g' node := hag node hne
            have hres' : ∀ d, (n, d) ∈ (bfsIAux g maxD filt fuel
                (if maxD ≤ depth then rest
                  else rest ++ (Graph.get g' node).map (fun d => (d, depth + 1)))
                (node :: v)).result → maxD ≤ d := by
              intro d hd
              apply hres d
              simp only [bfsIAux, if_neg hv, if_neg hf, List.mem_cons]
              right
              rw [hgg]
              exact hd
            simp only [bfsIAux, if_neg hv, if_neg hf, hgg, ih _ (node :: v) hres']

/-! ## Lookup behaviour of `dict` assignment and the loader (C8) -/

theorem dictSet_lookup_self (d : Graph) (k : String) (v : List String) :
    List.lookup k (dictSet d k v) = some v := by
  induction d with
  | nil => simp [dictSet, List.lookup]
  | cons e rest ih =>
    obtain ⟨k', v'⟩ := e
    by_cases he : k' = k
    · simp [dictSet, he, List.lookup]
    · simp only [dictSet, if_neg he]
      rw [List.lookup_cons]
      have : (k == k') = false := by
        simp [beq_iff_eq]
        exact fun h => he h.symm
      rw [this]
      exact ih

theorem dictSet_lookup_other (d : Graph) (k p : String) (v : List String)
    (h : p ≠ k) : List.lookup p (dictSet d k v) = List.lookup p d := by
  induction d with
  | nil =>
    simp only [dictSet]
    rw [List.lookup_cons]
    have hb : (p == k) = false := by simpa [beq_iff_eq] using h
    rw [hb]
  | cons e rest ih =>
    obtain ⟨k', v'⟩ := e
    by_cases he : k' = k
    · simp only [dictSet, if_pos he]
      rw [List.lookup_cons, List.lookup_cons]
      have h1 : (p == k) = false := by simpa [beq_iff_eq] using h
      have h2 : (p == k') = false := by
        rw [he]
        exact h1
      rw [h1, h2]
    · simp only [dictSet, if_neg he]
      rw [List.lookup_cons, List.lookup_cons]
      cases hpk : (p == k') with
      | true => rfl
      | false => exact ih

theorem dictSet_keys (d : Graph) (k p : String) (v : List String) :
    p ∈ keysList (dictSet d k v) ↔ p = k ∨ p ∈ keysList d := by
  induction d with
  | nil => simp [dictSet, keysList]
  | cons e rest ih =>
    obtain ⟨k', v'⟩ := e
    by_cases he : k' = k
    · subst he
      simp [dictSet, keysList]
    · simp only [dictSet, if_neg he, keysList, List.map_cons, List.mem_cons]
      rw [show (List.map Prod.fst (dictSet rest k v)) = keysList (dictSet rest k v) from rfl]
      rw [ih]
      constructor
      · rintro (h | h | h)
        · exact Or.inr (Or.inl h)
        · exact Or.inl h
        · exact Or.inr (Or.inr h)
      · rintro (h | h | h)
        · exact Or.inr (Or.inl h)
        · exact Or.inl h
        · exact Or.inr (Or.inr h)

/-- The parsed `(package, deps)` entries of the input lines, in order. -/
def parsedLines (lines : List String) : List (String × List String) :=
  lines.filterMap parseLine

theorem read_test_graph_eq_fold :
    ∀ (lines : List String) (g : Graph),
      lines.foldl
        (fun g line =>
          match parseLine line with
          | none => g
          | some (p, ds) => dictSet g p ds) g =
      (parsedLines lines).foldl (fun g e => dictSet g e.1 e.2) g := by
  intro lines
  induction lines with
  | nil => intro g; simp [parsedLines]
  | cons line rest ih =>
    intro g
    simp only [List.foldl_cons, parsedLines, List.filterMap_cons]
    cases hp : parseLine line with
    | none => simpa [parsedLines] using ih g
    | some e =>
      obtain ⟨p, ds⟩ := e
      simpa [parsedLines] using ih (dictSet g p ds)

theorem lookup_fold_dictSet :
    ∀ (es : List (String × List String)) (g : Graph) (p : String),
      List.lookup p (es.foldl (fun g e => dictSet g e.1 e.2) g) =
        match es.reverse.find? (fun e => e.1 = p) with
        | some e => some e.2
        | none => List.lookup p g := by
  intro es
  induction es with
  | nil => intro g p; simp
  | cons e t ih =>
    intro g p
    simp only [List.foldl_cons, List.reverse_cons, List.find?_append]
    rw [ih]
    cases hf : List.find? (fun e => decide (e.1 = p)) t.reverse with
    | some x => simp
    | none =>
      simp only [Option.none_or]
      by_cases hep : e.1 = p
      · have hfind : List.find? (fun e => decide (e.1 = p)) [e] = some e :=
          List.find?_cons_of_pos _ (by simpa using hep)
        rw [hfind]
        show List.lookup p (dictSet g e.1 e.2) = some e.2
        rw [← hep]
        exact dictSet_lookup_self g e.1 e.2
      · have hfind : List.find? (fun e => decide (e.1 = p)) [e] = none := by
          rw [List.find?_cons_of_neg _ (by simpa using hep)]
          rfl
        rw [hfind]
        show List.lookup p (dictSet g e.1 e.2) = List.lookup p g
        exact dictSet_lookup_other g e.1 p e.2 (fun hq => hep hq.symm)

theorem keys_fold_dictSet :
    ∀ (es : List (String × List String)) (g : Graph) (p : String),
      p ∈ keysList (es.foldl (fun g e => dictSet g e.1 e.2) g) ↔
        p ∈ keysList g ∨ p ∈ es.map Prod.fst := by
  intro es
  induction es with
  | nil => intro g p; simp
  | cons e t ih =>
    intro g p
    simp only [List.foldl_cons, List.map_cons, List.mem_cons]
    rw [ih, dictSet_keys]
    constructor
    · rintro ((h | h) | h)
      · exact Or.inr (Or.inl h)
      · exact Or.inl h
      · exact Or.inr (Or.inr h)
    · rintro (h | h | h)
      · exact Or.inl (Or.inr h)
      · exact Or.inl (Or.inl h)
      · exact Or.inr h

/-! ## Invariants of the topological sort -/

/-- The state carried by a returned `visit` outcome (the mutable state both
on normal return and at the moment a cycle error was raised). -/
def exceptState : Except (String × TState) TState → TState
  | Except.ok s => s
  | Except.error (_, s) => s

theorem visitT_ok_state (g : Graph) :
    ∀ fuel nodes s s', visitT g fuel nodes s = some (Except.ok s') →
      s'.temp = s.temp ∧ (∃ new, s'.visited = new ++ s.visited) ∧
        (∃ app, s'.result = s.result ++ app) := by
  intro fuel
  induction fuel with
  | zero =>
    rintro (_ | ⟨node, rest⟩) s s' h
    · simp only [visitT] at h
      obtain rfl : s = s' := by injection h with h'; injection h'
      exact ⟨rfl, ⟨[], rfl⟩, ⟨[], by simp⟩⟩
    · simp [visitT] at h
  | succ fuel ih =>
    rintro (_ | ⟨node, rest⟩) s s' h
    · simp only [visitT] at h
      obtain rfl : s = s' := by injection h with h'; injection h'
      exact ⟨rfl, ⟨[], rfl⟩, ⟨[], by simp⟩⟩
    · simp only [visitT] at h
      by_cases ht : node ∈ s.temp
      · rw [if_pos ht] at h
        injection h with h'
        cases h'
      · rw [if_neg ht] at h
        by_cases hv : node ∈ s.visited
        · rw [if_pos hv] at h
          exact ih rest s s' h
        · rw [if_neg hv] at h
          cases hd : visitT g fuel (Graph.get g node)
              ⟨node :: s.temp, s.visited, s.result⟩ with
          | none => rw [hd] at h; cases h
          | some r =>
            rw [hd] at h
            cases r with
            | error e => injection h with h'; cases h'
            | ok s₁ =>
              obtain ⟨ht1, ⟨new1, hv1⟩, ⟨app1, hr1⟩⟩ := ih _ _ _ hd
              obtain ⟨ht2, ⟨new2, hv2⟩, ⟨app2, hr2⟩⟩ := ih _ _ _ h
              dsimp only at ht1 hv1 hr1 ht2 hv2 hr2
              refine ⟨?_, ⟨new2 ++ (node :: new1), ?_⟩, ⟨app1 ++ [node] ++ app2, ?_⟩⟩
              · rw [ht2, ht1]
                exact List.erase_cons_head node s.temp
              · rw [hv2, hv1]
                simp
              · rw [hr2, hr1]
                simp

theorem visitT_err_state (g : Graph) :
    ∀ fuel nodes s c s', visitT g fuel nodes s = some (Except.error (c, s')) →
      (∃ ext, s'.temp = ext ++ s.temp) ∧ (∃ new, s'.visited = new ++ s.visited) ∧
        (∃ app, s'.result = s.result ++ app) ∧ c ∈ s'.temp := by
  intro fuel
  induction fuel with
  | zero =>
    rintro (_ | ⟨node, rest⟩) s c s' h
    · simp only [visitT] at h
      injection h with h'
      cases h'
    · simp [visitT] at h
  | succ fuel ih =>
    rintro (_ | ⟨node, rest⟩) s c s' h
    · simp only [visitT] at h
      injection h with h'
      cases h'
    · simp only [visitT] at h
      by_cases ht : node ∈ s.temp
      · rw [if_pos ht] at h
        injection h with h'
        injection h' with h1
        obtain ⟨rfl, rfl⟩ : node = c ∧ s = s' := by
          rw [Prod.mk.injEq] at h1
          exact h1
        exact ⟨⟨[], rfl⟩, ⟨[], rfl⟩, ⟨[], by simp⟩, ht⟩
      · rw [if_neg ht] at h
        by_cases hv : node ∈ s.visited
        · rw [if_pos hv] at h
          exact ih rest s c s' h
        · rw [if_neg hv] at h
          cases hd : visitT g fuel (Graph.get g node)
              ⟨node :: s.temp, s.visited, s.result⟩ with
          | none => rw [hd] at h; cases h
          | some r =>
            rw [hd] at h
            cases r with
            | error e =>
              obtain ⟨c₀, s₀⟩ := e
              injection h with h'
              injection h' with h1
              obtain ⟨rfl, rfl⟩ : c₀ = c ∧ s₀ = s' := by
                rw [Prod.mk.injEq] at h1
                exact h1
              obtain ⟨⟨ext1, hte⟩, ⟨new1, hv1⟩, ⟨app1, hr1⟩, hc⟩ := ih _ _ _ _ hd
              dsimp only at hte hv1 hr1
              refine ⟨⟨ext1 ++ [node], ?_⟩, ⟨new1, hv1⟩, ⟨app1, hr1⟩, hc⟩
              rw [hte]
              simp
            | ok s₁ =>
              obtain ⟨ht1, ⟨new1, hv1⟩, ⟨app1, hr1⟩⟩ := visitT_ok_state g fuel _ _ _ hd
              obtain ⟨⟨ext2, hte⟩, ⟨new2, hv2⟩, ⟨app2, hr2⟩, hc⟩ := ih _ _ _ _ h
              dsimp only at ht1 hv1 hr1 hte hv2 hr2
              refine ⟨⟨ext2, ?_⟩, ⟨new2 ++ (node :: new1), ?_⟩,
                ⟨app1 ++ [node] ++ app2, ?_⟩, hc⟩
              · rw [hte, ht1]
                rw [List.erase_cons_head node s.temp]
              · rw [hv2, hv1]
                simp
              · rw [hr2, hr1]
                simp

/-- Structural invariant of the sort state: the post-order list has no
duplicates, mirrors the visited set, and is disjoint from the open path. -/
def TInv (s : TState) : Prop :=
  s.result.Nodup ∧ (∀ n, n ∈ s.visited ↔ n ∈ s.result) ∧
    (∀ n ∈ s.temp, n ∉ s.result) ∧ s.temp.Nodup

theorem visitT_inv (g : Graph) :
    ∀ fuel nodes s, TInv s → ∀ r, visitT g fuel nodes s = some r →
      TInv (exceptState r) := by
  intro fuel
  induction fuel with
  | zero =>
    rintro (_ | ⟨node, rest⟩) s hs r h
    · simp only [visitT] at h
      obtain rfl : Except.ok s = r := by injection h
      exact hs
    · simp [visitT] at h
  | succ fuel ih =>
    rintro (_ | ⟨node, rest⟩) s hs r h
    · simp only [visitT] at h
      obtain rfl : Except.ok s = r := by injection h
      exact hs
    · simp only [visitT] at h
      by_cases ht : node ∈ s.temp
      · rw [if_pos ht] at h
        obtain rfl : Except.error (node, s) = r := by injection h
        exact hs
      · rw [if_neg ht] at h
        by_cases hv : node ∈ s.visited
        · rw [if_pos hv] at h
          exact ih rest s hs r h
        · rw [if_neg hv] at h
          cases hd : visitT g fuel (Graph.get g node)
              ⟨node :: s.temp, s.visited, s.result⟩ with
          | none => rw [hd] at h; cases h
          | some r₀ =>
            rw [hd] at h
            obtain ⟨hnd, hvr, htr, htnd⟩ := hs
            have hs₁ : TInv ⟨node :: s.temp, s.visited, s.result⟩ := by
              refine ⟨hnd, hvr, ?_, ?_⟩
              · intro x hx
                rcases List.mem_cons.mp hx with h1 | h1
                · rw [h1]
                  exact fun hc => hv ((hvr node).mpr hc)
                · exact htr x h1
              · exact List.nodup_cons.mpr ⟨ht, htnd⟩
            cases r₀ with
            | error e =>
              obtain rfl : Except.error e = r := by injection h
              exact ih _ _ hs₁ _ hd
            | ok s₁ =>
              obtain ⟨ht1, ⟨new1, hv1⟩, ⟨app1, hr1⟩⟩ := visitT_ok_state g fuel _ _ _ hd
              dsimp only at ht1 hv1 hr1
              have hinv₁ : TInv s₁ := by
                have := ih _ _ hs₁ _ hd
                simpa [exceptState] using this
              obtain ⟨hnd1, hvr1, htr1, htnd1⟩ := hinv₁
              have hnode_nr : node ∉ s₁.result := htr1 node (by rw [ht1]; exact List.mem_cons_self _ _)
              have hs₂ : TInv ⟨s₁.temp.erase node, node :: s₁.visited, s₁.result ++ [node]⟩ := by
                refine ⟨?_, ?_, ?_, ?_⟩
                · rw [List.nodup_append]
                  refine ⟨hnd1, List.nodup_singleton node, ?_⟩
                  intro x hx hx'
                  have : x = node := by simpa using hx'
                  exact hnode_nr (this ▸ hx)
                · intro x
                  dsimp only
                  rw [List.mem_cons, List.mem_append, List.mem_singleton, hvr1 x]
                  tauto
                · intro x hx
                  dsimp only at hx
                  rw [ht1] at hx
                  rw [List.erase_cons_head] at hx
                  dsimp only
                  rw [List.mem_append, List.mem_singleton]
                  push_neg
                  constructor
                  · exact htr1 x (by rw [ht1]; exact List.mem_cons_of_mem _ hx)
                  · intro hc
                    exact ht (hc ▸ hx)
                · dsimp only
                  rw [ht1, List.erase_cons_head]
                  exact htnd
              exact ih _ _ hs₂ _ h

theorem visitT_ok_done (g : Graph) :
    ∀ fuel nodes s s', visitT g fuel nodes s = some (Except.ok s') →
      ∀ n ∈ nodes, n ∈ s'.visited := by
  intro fuel
  induction fuel with
  | zero =>
    rintro (_ | ⟨node, rest⟩) s s' h n hn
    · simp at hn
    · simp [visitT] at h
  | succ fuel ih =>
    rintro (_ | ⟨node, rest⟩) s s' h n hn
    · simp at hn
    · simp only [visitT] at h
      by_cases ht : node ∈ s.temp
      · rw [if_pos ht] at h
        injection h with h'
        cases h'
      · rw [if_neg ht] at h
        by_cases hv : node ∈ s.visited
        · rw [if_pos hv] at h
          rcases List.mem_cons.mp hn with h1 | h1
          · obtain ⟨_, ⟨new, hvis⟩, _⟩ := visitT_ok_state g fuel rest s s' h
            subst h1
            rw [hvis]
            exact List.mem_append_right _ hv
          · exact ih rest s s' h n h1
        · rw [if_neg hv] at h
          cases hd : visitT g fuel (Graph.get g node)
              ⟨node :: s.temp, s.visited, s.result⟩ with
          | none => rw [hd] at h; cases h
          | some r₀ =>
            rw [hd] at h
            cases r₀ with
            | error e => injection h with h'; cases h'
            | ok s₁ =>
              rcases List.mem_cons.mp hn with h1 | h1
              · obtain ⟨_, ⟨new, hvis⟩, _⟩ := visitT_ok_state g fuel rest _ s' h
                dsimp only at hvis
                subst h1
                rw [hvis]
                exact List.mem_append_right _ (List.mem_cons_self _ _)
              · exact ih rest _ s' h n h1

/-- Dependency closure invariant: every visited node's dependencies are
visited or on the open path. -/
def TClosed (g : Graph) (s : TState) : Prop :=
  ∀ n ∈ s.visited, ∀ d ∈ Graph.get g n, d ∈ s.visited ∨ d ∈ s.temp

theorem visitT_closed (g : Graph) :
    ∀ fuel nodes s, TClosed g s → ∀ r, visitT g fuel nodes s = some r →
      TClosed g (exceptState r) := by
  intro fuel
  induction fuel with
  | zero =>
    rintro (_ | ⟨node, rest⟩) s hs r h
    · simp only [visitT] at h
      obtain rfl : Except.ok s = r := by injection h
      exact hs
    · simp [visitT] at h
  | succ fuel ih =>
    rintro (_ | ⟨node, rest⟩) s hs r h
    · simp only [visitT] at h
      obtain rfl : Except.ok s = r := by injection h
      exact hs
    · simp only [visitT] at h
      by_cases ht : node ∈ s.temp
      · rw [if_pos ht] at h
        obtain rfl : Except.error (node, s) = r := by injection h
        exact hs
      · rw [if_neg ht] at h
        by_cases hv : node ∈ s.visited
        · rw [if_pos hv] at h
          exact ih rest s hs r h
        · rw [if_neg hv] at h
          cases hd : visitT g fuel (Graph.get g node)
              ⟨node :: s.temp, s.visited, s.result⟩ with
          | none => rw [hd] at h; cases h
          | some r₀ =>
            rw [hd] at h
            have hs₁ : TClosed g ⟨node :: s.temp, s.visited, s.result⟩ := by
              intro x hx d hd'
              rcases hs x hx d hd' with h1 | h1
              · exact Or.inl h1
              · exact Or.inr (List.mem_cons_of_mem _ h1)
            cases r₀ with
            | error e =>
              obtain rfl : Except.error e = r := by injection h
              exact ih _ _ hs₁ _ hd
            | ok s₁ =>
              obtain ⟨ht1, ⟨new1, hv1⟩, _⟩ := visitT_ok_state g fuel _ _ _ hd
              dsimp only at ht1 hv1
              have hcl₁ : TClosed g s₁ := by
                have := ih _ _ hs₁ _ hd
                simpa [exceptState] using this
              have hdeps : ∀ d ∈ Graph.get g node, d ∈ s₁.visited :=
                visitT_ok_done g fuel _ _ _ hd
              have hs₂ : TClosed g ⟨s₁.temp.erase node, node :: s₁.visited,
                  s₁.result ++ [node]⟩ := by
                intro x hx d hd'
                dsimp only at hx ⊢
                rw [ht1, List.erase_cons_head]
                rcases List.mem_cons.mp hx with h1 | h1
                · subst h1
                  exact Or.inl (List.mem_cons_of_mem _ (hdeps d hd'))
                · rcases hcl₁ x h1 d hd' with h2 | h2
                  · exact Or.inl (List.mem_cons_of_mem _ h2)
                  · rw [ht1] at h2
                    rcases List.mem_cons.mp h2 with h3 | h3
                    · exact Or.inl (by rw [h3]; exact List.mem_cons_self _ _)
                    · exact Or.inr h3
              exact ih _ _ hs₂ _ h

/-- `Before l a b` : some occurrence of `a` lies strictly before some
occurrence of `b` in the list `l`. -/
def Before (l : List String) (a b : String) : Prop :=
  ∃ l₁ l₂, l = l₁ ++ l₂ ∧ a ∈ l₁ ∧ b ∈ l₂

theorem before_append {l : List String} {a b : String} (t : List String)
    (h : Before l a b) : Before (l ++ t) a b := by
  obtain ⟨l₁, l₂, rfl, ha, hb⟩ := h
  exact ⟨l₁, l₂ ++ t, by simp, ha, List.mem_append_left _ hb⟩

theorem before_reverse {l : List String} {a b : String} (h : Before l a b) :
    Before l.reverse b a := by
  obtain ⟨l₁, l₂, rfl, ha, hb⟩ := h
  exact ⟨l₂.reverse, l₁.reverse, by simp, List.mem_reverse.mpr hb,
    List.mem_reverse.mpr ha⟩

/-- Post-order invariant: each node of the post-order list is preceded by
every one of its dependencies. -/
def TOrd (g : Graph) (s : TState) : Prop :=
  ∀ n ∈ s.result, ∀ d ∈ Graph.get g n, Before s.result d n

theorem visitT_ord (g : Graph) :
    ∀ fuel nodes s, TInv s → TOrd g s → ∀ r, visitT g fuel nodes s = some r →
      TOrd g (exceptState r) := by
  intro fuel
  induction fuel with
  | zero =>
    rintro (_ | ⟨node, rest⟩) s _ hs r h
    · simp only [visitT] at h
      obtain rfl : Except.ok s = r := by injection h
      exact hs
    · simp [visitT] at h
  | succ fuel ih =>
    rintro (_ | ⟨node, rest⟩) s hinv hs r h
    · simp only [visitT] at h
      obtain rfl : Except.ok s = r := by injection h
      exact hs
    · simp only [visitT] at h
      by_cases ht : node ∈ s.temp
      · rw [if_pos ht] at h
        obtain rfl : Except.error (node, s) = r := by injection h
        exact hs
      · rw [if_neg ht] at h
        by_cases hv : node ∈ s.visited
        · rw [if_pos hv] at h
          exact ih rest s hinv hs r h
        · rw [if_neg hv] at h
          cases hd : visitT g fuel (Graph.get g node)
              ⟨node :: s.temp, s.visited, s.result⟩ with
          | none => rw [hd] at h; cases h
          | some r₀ =>
            rw [hd] at h
            obtain ⟨hnd, hvr, htr, htnd⟩ := hinv
            have hs₁ : TInv ⟨node :: s.temp, s.visited, s.result⟩ := by
              refine ⟨hnd, hvr, ?_, ?_⟩
              · intro x hx
                rcases List.mem_cons.mp hx with h1 | h1
                · rw [h1]
                  exact fun hc => hv ((hvr node).mpr hc)
                · exact htr x h1
              · exact List.nodup_cons.mpr ⟨ht, htnd⟩
            have hso : TOrd g ⟨node :: s.temp, s.visited, s.result⟩ := hs
            cases r₀ with
            | error e =>
              obtain rfl : Except.error e = r := by injection h
              exact ih _ _ hs₁ hso _ hd
            | ok s₁ =>
              obtain ⟨ht1, ⟨new1, hv1⟩, ⟨app1, hr1⟩⟩ := visitT_ok_state g fuel _ _ _ hd
              dsimp only at ht1 hv1 hr1
              have hinv₁ : TInv s₁ := by
                have := visitT_inv g fuel _ _ hs₁ _ hd
                simpa [exceptState] using this
              have hord₁ : TOrd g s₁ := by
                have := ih _ _ hs₁ hso _ hd
                simpa [exceptState] using this
              have hdeps : ∀ d ∈ Graph.get g node, d ∈ s₁.visited :=
                visitT_ok_done g fuel _ _ _ hd
              have hinv₂ : TInv ⟨s₁.temp.erase node, node :: s₁.visited,
                  s₁.result ++ [node]⟩ := by
                have := visitT_inv g (fuel + 1) (node :: rest) s
                  ⟨hnd, hvr, htr, htnd⟩
                -- recompute directly instead: reuse path through visitT_inv on prefix
                -- simpler: rebuild from hinv₁ as in visitT_inv
                obtain ⟨hnd1, hvr1, htr1, htnd1⟩ := hinv₁
                have hnode_nr : node ∉ s₁.result :=
                  htr1 node (by rw [ht1]; exact List.mem_cons_self _ _)
                refine ⟨?_, ?_, ?_, ?_⟩
                · rw [List.nodup_append]
                  refine ⟨hnd1, List.nodup_singleton node, ?_⟩
                  intro x hx hx'
                  have : x = node := by simpa using hx'
                  exact hnode_nr (this ▸ hx)
                · intro x
                  dsimp only
                  rw [List.mem_cons, List.mem_append, List.mem_singleton, hvr1 x]
                  tauto
                · intro x hx
                  dsimp only at hx
                  rw [ht1, List.erase_cons_head] at hx
                  dsimp only
                  rw [List.mem_append, List.mem_singleton]
                  push_neg
                  refine ⟨htr1 x (by rw [ht1]; exact List.mem_cons_of_mem _ hx), ?_⟩
                  intro hc
                  exact ht (hc ▸ hx)
                · dsimp only
                  rw [ht1, List.erase_cons_head]
                  exact htnd
              have hord₂ : TOrd g ⟨s₁.temp.erase node, node :: s₁.visited,
                  s₁.result ++ [node]⟩ := by
                intro x hx d hd'
                dsimp only at hx ⊢
                rcases List.mem_append.mp hx with h1 | h1
                · exact before_append _ (hord₁ x h1 d hd')
                · have hxn : x = node := by simpa using h1
                  rw [hxn] at hd' ⊢
                  have hdr : d ∈ s₁.result := (hinv₁.2.1 d).mp (hdeps d hd')
                  exact ⟨s₁.result, [node], rfl, hdr, List.mem_singleton.mpr rfl⟩
              exact ih _ _ hinv₂ hord₂ _ h

/-! ## Fuel adequacy for the topological sort -/

theorem get_sub_allNodes {g : Graph} {n d : String} (h : d ∈ Graph.get g n) :
    d ∈ allNodes g := by
  unfold Graph.get at h
  cases hl : List.lookup n g with
  | none => rw [hl] at h; simp at h
  | some ds =>
    rw [hl] at h
    simp only [Option.getD_some] at h
    have hm : (n, ds) ∈ g := lookup_mem hl
    unfold allNodes
    refine List.mem_append_right _ ?_
    rw [List.mem_flatten]
    exact ⟨ds, List.mem_map.mpr ⟨(n, ds), hm, rfl⟩, h⟩

theorem le_foldr_max (l : List Nat) (x : Nat) (h : x ∈ l) :
    x ≤ l.foldr max 0 := by
  induction l with
  | nil => simp at h
  | cons a t ih =>
    rcases List.mem_cons.mp h with h1 | h1
    · rw [h1]; exact le_max_left _ _
    · exact le_trans (ih h1) (le_max_right _ _)

theorem get_length_le_maxAdj (g : Graph) (n : String) :
    (Graph.get g n).length ≤ maxAdj g := by
  unfold Graph.get
  cases hl : List.lookup n g with
  | none => simp
  | some ds =>
    simp only [Option.getD_some]
    exact le_foldr_max _ _ (List.mem_map.mpr ⟨(n, ds), lookup_mem hl, rfl⟩)

theorem tCompl_mono (g : Graph) (start : String) (s s' : TState)
    (h : s.temp.toFinset ∪ s.visited.toFinset ⊆
      s'.temp.toFinset ∪ s'.visited.toFinset) :
    tCompl g start s' ≤ tCompl g start s := by
  unfold tCompl
  exact Finset.card_le_card (Finset.sdiff_subset_sdiff (le_refl _) h)

theorem tCompl_temp_cons (g : Graph) (start : String) (s : TState)
    (node : String) (res : List String)
    (hU : node ∈ (start :: allNodes g).toFinset)
    (ht : node ∉ s.temp) (hv : node ∉ s.visited) :
    tCompl g start ⟨node :: s.temp, s.visited, res⟩ + 1 = tCompl g start s := by
  unfold tCompl
  dsimp only
  have h1 : (node :: s.temp).toFinset ∪ s.visited.toFinset =
      insert node (s.temp.toFinset ∪ s.visited.toFinset) := by
    rw [List.toFinset_cons]
    exact Finset.insert_union _ _ _
  rw [h1, Finset.sdiff_insert]
  have hmem : node ∈ (start :: allNodes g).toFinset \
      (s.temp.toFinset ∪ s.visited.toFinset) := by
    rw [Finset.mem_sdiff]
    refine ⟨hU, ?_⟩
    rw [Finset.mem_union]
    push_neg
    exact ⟨by simpa using ht, by simpa using hv⟩
  rw [Finset.card_erase_of_mem hmem]
  have : 0 < ((start :: allNodes g).toFinset \
      (s.temp.toFinset ∪ s.visited.toFinset)).card :=
    Finset.card_pos.mpr ⟨node, hmem⟩
  omega

theorem visitT_adequate (g : Graph) (start : String) :
    ∀ fuel nodes s, (∀ m ∈ nodes, m ∈ start :: allNodes g) →
      nodes.length + tCompl g start s * (maxAdj g + 1) < fuel →
      visitT g fuel nodes s ≠ none := by
  intro fuel
  induction fuel with
  | zero => intro nodes s _ hb; omega
  | succ fuel ih =>
    rintro (_ | ⟨node, rest⟩) s hsub hb
    · simp [visitT]
    · simp only [visitT]
      by_cases ht : node ∈ s.temp
      · rw [if_pos ht]; simp
      · rw [if_neg ht]
        by_cases hv : node ∈ s.visited
        · rw [if_pos hv]
          refine ih rest s (fun m hm => hsub m (List.mem_cons_of_mem _ hm)) ?_
          simp only [List.length_cons] at hb
          omega
        · rw [if_neg hv]
          have hUnode : node ∈ (start :: allNodes g).toFinset := by
            rw [List.mem_toFinset]
            exact hsub node (List.mem_cons_self _ _)
          have hc := tCompl_temp_cons g start s node s.result hUnode ht hv
          have hA := get_length_le_maxAdj g node
          have hdsub : ∀ m ∈ Graph.get g node, m ∈ start :: allNodes g :=
            fun m hm => List.mem_cons_of_mem _ (get_sub_allNodes hm)
          have hb1 : (Graph.get g node).length +
              tCompl g start ⟨node :: s.temp, s.visited, s.result⟩ *
                (maxAdj g + 1) < fuel := by
            have hmul : tCompl g start s * (maxAdj g + 1) =
                tCompl g start ⟨node :: s.temp, s.visited, s.result⟩ *
                  (maxAdj g + 1) + (maxAdj g + 1) := by
              rw [← hc]; ring
            simp only [List.length_cons] at hb
            omega
          cases hd : visitT g fuel (Graph.get g node)
              ⟨node :: s.temp, s.visited, s.result⟩ with
          | none => exact absurd hd (ih _ _ hdsub hb1)
          | some r₀ =>
            cases r₀ with
            | error e => simp
            | ok s₁ =>
              obtain ⟨ht1, ⟨new1, hv1⟩, _⟩ := visitT_ok_state g fuel _ _ _ hd
              dsimp only at ht1 hv1
              refine ih rest _ (fun m hm => hsub m (List.mem_cons_of_mem _ hm)) ?_
              have hc2 : tCompl g start ⟨s₁.temp.erase node, node :: s₁.visited,
                  s₁.result ++ [node]⟩ ≤ tCompl g start s := by
                apply tCompl_mono
                intro x hx
                rcases Finset.mem_union.mp hx with h1 | h1
                · refine Finset.mem_union_left _ ?_
                  dsimp only
                  rw [ht1, List.erase_cons_head]
                  exact h1
                · refine Finset.mem_union_right _ ?_
                  dsimp only
                  rw [List.mem_toFinset] at h1 ⊢
                  rw [hv1]
                  exact List.mem_cons_of_mem _ (List.mem_append_right _ h1)
              have hle : tCompl g start ⟨s₁.temp.erase node, node :: s₁.visited,
                  s₁.result ++ [node]⟩ * (maxAdj g + 1) ≤
                  tCompl g start s * (maxAdj g + 1) :=
                Nat.mul_le_mul_right _ hc2
              simp only [List.length_cons] at hb
              omega

theorem visitT_no_cycle (g : Graph) (start : String) (hacy : AcyclicFrom g start) :
    ∀ fuel nodes s,
      (∀ t ∈ s.temp, Reach g start t) →
      (∀ m ∈ nodes, Reach g start m) →
      (∀ t ∈ s.temp, ∀ m ∈ nodes, ReachPlus g t m) →
      ∀ c s', visitT g fuel nodes s = some (Except.error (c, s')) → False := by
  intro fuel
  induction fuel with
  | zero =>
    rintro (_ | ⟨node, rest⟩) s _ _ _ c s' h
    · simp only [visitT] at h
      injection h with h'
      cases h'
    · simp [visitT] at h
  | succ fuel ih =>
    rintro (_ | ⟨node, rest⟩) s h1 h2 h3 c s' h
    · simp only [visitT] at h
      injection h with h'
      cases h'
    · simp only [visitT] at h
      by_cases ht : node ∈ s.temp
      · exact hacy node (h2 node (List.mem_cons_self _ _))
          (h3 node ht node (List.mem_cons_self _ _))
      · rw [if_neg ht] at h
        by_cases hv : node ∈ s.visited
        · rw [if_pos hv] at h
          exact ih rest s h1 (fun m hm => h2 m (List.mem_cons_of_mem _ hm))
            (fun t htm m hm => h3 t htm m (List.mem_cons_of_mem _ hm)) c s' h
        · rw [if_neg hv] at h
          cases hd : visitT g fuel (Graph.get g node)
              ⟨node :: s.temp, s.visited, s.result⟩ with
          | none => rw [hd] at h; cases h
          | some r₀ =>
            rw [hd] at h
            have h1' : ∀ t ∈ node :: s.temp, Reach g start t := by
              intro t htm
              rcases List.mem_cons.mp htm with he | he
              · rw [he]; exact h2 node (List.mem_cons_self _ _)
              · exact h1 t he
            have h2' : ∀ m ∈ Graph.get g node, Reach g start m := by
              intro m hm
              exact Reach.tail (h2 node (List.mem_cons_self _ _)) hm
            have h3' : ∀ t ∈ node :: s.temp, ∀ m ∈ Graph.get g node,
                ReachPlus g t m := by
              intro t htm m hm
              rcases List.mem_cons.mp htm with he | he
              · rw [he]
                exact ⟨m, hm, Reach.refl m⟩
              · obtain ⟨m₀, h₀, hr₀⟩ := h3 t he node (List.mem_cons_self _ _)
                exact ⟨m₀, h₀, Reach.tail hr₀ hm⟩
            cases r₀ with
            | error e =>
              obtain ⟨c₀, s₀⟩ := e
              injection h with h'
              injection h' with h''
              obtain ⟨rfl, rfl⟩ : c₀ = c ∧ s₀ = s' := by
                rw [Prod.mk.injEq] at h''
                exact h''
              exact ih _ _ h1' h2' h3' _ _ hd
            | ok s₁ =>
              obtain ⟨ht1, ⟨new1, hv1⟩, _⟩ := visitT_ok_state g fuel _ _ _ hd
              dsimp only at ht1 hv1
              have h1'' : ∀ t ∈ (TState.mk (s₁.temp.erase node) (node :: s₁.visited)
                  (s₁.result ++ [node])).temp, Reach g start t := by
                intro t htm
                dsimp only at htm
                rw [ht1, List.erase_cons_head] at htm
                exact h1 t htm
              have h3'' : ∀ t ∈ (TState.mk (s₁.temp.erase node) (node :: s₁.visited)
                  (s₁.result ++ [node])).temp, ∀ m ∈ rest, ReachPlus g t m := by
                intro t htm m hm
                dsimp only at htm
                rw [ht1, List.erase_cons_head] at htm
                exact h3 t htm m (List.mem_cons_of_mem _ hm)
              exact ih _ _ h1'' (fun m hm => h2 m (List.mem_cons_of_mem _ hm))
                h3'' c s' h

theorem tFuel_adequate (g : Graph) (s : String) :
    visitT g (tFuel g s) [s] ⟨[], [], []⟩ ≠ none := by
  apply visitT_adequate g s
  · intro m hm
    rw [List.mem_singleton.mp hm]
    exact List.mem_cons_self _ _
  · unfold tFuel tCompl
    simp only [List.length_cons, List.length_nil, List.toFinset_nil,
      Finset.union_empty, Finset.sdiff_empty]
    omega

theorem topological_sort_acyclic (g : Graph) (s : String)
    (hacy : AcyclicFrom g s) :
    (topological_sort g s).2 = none ∧
    ∀ a b, Reach g s a → b ∈ Graph.get g a →
      a ∈ (topological_sort g s).1 ∧ b ∈ (topological_sort g s).1 ∧
        Before (topological_sort g s).1 a b := by
  cases hrun : visitT g (tFuel g s) [s] ⟨[], [], []⟩ with
  | none => exact absurd hrun (tFuel_adequate g s)
  | some r =>
    cases r with
    | error e =>
      obtain ⟨c, s'⟩ := e
      exact absurd hrun (fun h => visitT_no_cycle g s hacy (tFuel g s) [s] _
        (by intro t htm; simp at htm)
        (by intro m hm; rw [List.mem_singleton.mp hm]; exact Reach.refl s)
        (by intro t htm; simp at htm) c s' h)
    | ok s' =>
      have htop : topological_sort g s = (s'.result.reverse, none) := by
        unfold topological_sort
        rw [hrun]
      have hinv : TInv s' := by
        have := visitT_inv g (tFuel g s) [s] ⟨[], [], []⟩
          (by refine ⟨List.nodup_nil, ?_, ?_, List.nodup_nil⟩ <;> simp)
          _ hrun
        simpa [exceptState] using this
      have hord : TOrd g s' := by
        have := visitT_ord g (tFuel g s) [s] ⟨[], [], []⟩
          (by refine ⟨List.nodup_nil, ?_, ?_, List.nodup_nil⟩ <;> simp)
          (by intro n hn; simp at hn)
          _ hrun
        simpa [exceptState] using this
      have hcl : TClosed g s' := by
        have := visitT_closed g (tFuel g s) [s] ⟨[], [], []⟩
          (by intro n hn; simp at hn)
          _ hrun
        simpa [exceptState] using this
      obtain ⟨htemp, _, _⟩ := visitT_ok_state g (tFuel g s) [s] _ _ hrun
      have hstart : s ∈ s'.visited :=
        visitT_ok_done g (tFuel g s) [s] _ _ hrun s (List.mem_cons_self _ _)
      have hreach : ∀ a, Reach g s a → a ∈ s'.visited := by
        intro a ha
        induction ha with
        | refl => exact hstart
        | tail hr hmem ih =>
          rcases hcl _ ih _ hmem with h1 | h1
          · exact h1
          · rw [htemp] at h1
            simp at h1
      constructor
      · rw [htop]
      · intro a b hra hb
        have hav : a ∈ s'.visited := hreach a hra
        have hbv : b ∈ s'.visited := hreach b (Reach.tail hra hb)
        have har : a ∈ s'.result := (hinv.2.1 a).mp hav
        have hbr : b ∈ s'.result := (hinv.2.1 b).mp hbv
        have hbef : Before s'.result b a := hord a har b hb
        rw [htop]
        exact ⟨List.mem_reverse.mpr har, List.mem_reverse.mpr hbr,
          before_reverse hbef⟩

theorem topological_sort_cycle_state (g : Graph) (s c : String) (s' : TState)
    (h : visitT g (tFuel g s) [s] ⟨[], [], []⟩ = some (Except.error (c, s'))) :
    topological_sort g s = (s'.result.reverse, some c) ∧
    (∀ n, n ∈ s'.visited ↔ n ∈ s'.result) ∧
    (∀ n ∈ s'.temp, n ∉ s'.result) ∧ c ∈ s'.temp := by
  have hinv : TInv s' := by
    have := visitT_inv g (tFuel g s) [s] ⟨[], [], []⟩
      (by refine ⟨List.nodup_nil, ?_, ?_, List.nodup_nil⟩ <;> simp)
      _ h
    simpa [exceptState] using this
  obtain ⟨_, _, _, hc⟩ := visitT_err_state g (tFuel g s) [s] _ _ _ h
  refine ⟨?_, hinv.2.1, hinv.2.2.1, hc⟩
  unfold topological_sort
  rw [h]

/-! ## Invariants of the Mermaid generator -/

/-- Unvisited part of the node universe during a Mermaid walk. -/
def mCompl (g : Graph) (root : String) (s : MState) : Nat :=
  ((root :: allNodes g).toFinset \ s.visited.toFinset).card

theorem mCompl_cons (g : Graph) (root : String) (s : MState) (node : String)
    (lines : List String) (hU : node ∈ (root :: allNodes g).toFinset)
    (hv : node ∉ s.visited) :
    mCompl g root ⟨node :: s.visited, lines⟩ + 1 = mCompl g root s := by
  unfold mCompl
  dsimp only
  have h1 : (node :: s.visited).toFinset = insert node s.visited.toFinset :=
    List.toFinset_cons
  rw [h1, Finset.sdiff_insert]
  have hmem : node ∈ (root :: allNodes g).toFinset \ s.visited.toFinset := by
    rw [Finset.mem_sdiff]
    exact ⟨hU, by simpa using hv⟩
  rw [Finset.card_erase_of_mem hmem]
  have : 0 < ((root :: allNodes g).toFinset \ s.visited.toFinset).card :=
    Finset.card_pos.mpr ⟨node, hmem⟩
  omega

theorem mCompl_mono (g : Graph) (root : String) (s s' : MState)
    (h : ∀ x ∈ s.visited, x ∈ s'.visited) :
    mCompl g root s' ≤ mCompl g root s := by
  unfold mCompl
  apply Finset.card_le_card
  apply Finset.sdiff_subset_sdiff (le_refl _)
  intro x hx
  rw [List.mem_toFinset] at hx ⊢
  exact h x hx

theorem visitM_mono (g : Graph) :
    ∀ fuel,
      (∀ n s, (∃ new, (visitMNode g fuel n s).visited = new ++ s.visited) ∧
        (∃ app, (visitMNode g fuel n s).lines = s.lines ++ app)) ∧
      (∀ p deps s, (∃ new, (visitMDeps g fuel p deps s).visited = new ++ s.visited) ∧
        (∃ app, (visitMDeps g fuel p deps s).lines = s.lines ++ app)) := by
  intro fuel
  induction fuel with
  | zero =>
    constructor
    · intro n s
      exact ⟨⟨[], rfl⟩, ⟨[], by simp [visitMNode]⟩⟩
    · intro p deps s
      exact ⟨⟨[], rfl⟩, ⟨[], by simp [visitMDeps]⟩⟩
  | succ fuel ih =>
    obtain ⟨ihN, ihD⟩ := ih
    constructor
    · intro n s
      by_cases hv : n ∈ s.visited
      · simp only [visitMNode, if_pos hv]
        exact ⟨⟨[], rfl⟩, ⟨[], by simp⟩⟩
      · simp only [visitMNode, if_neg hv]
        obtain ⟨⟨new, hnew⟩, ⟨app, happ⟩⟩ := ihD n (Graph.get g n) ⟨n :: s.visited, s.lines⟩
        dsimp only at hnew happ
        exact ⟨⟨new ++ [n], by rw [hnew]; simp⟩, ⟨app, happ⟩⟩
    · rintro p (_ | ⟨dep, rest⟩) s
      · simp only [visitMDeps]
        exact ⟨⟨[], rfl⟩, ⟨[], by simp⟩⟩
      · simp only [visitMDeps]
        obtain ⟨⟨new₁, hnew₁⟩, ⟨app₁, happ₁⟩⟩ := ihN dep
          ⟨s.visited, s.lines ++ ["    " ++ p ++ " --> " ++ dep]⟩
        obtain ⟨⟨new₂, hnew₂⟩, ⟨app₂, happ₂⟩⟩ := ihD p rest
          (visitMNode g fuel dep ⟨s.visited, s.lines ++ ["    " ++ p ++ " --> " ++ dep]⟩)
        dsimp only at hnew₁ happ₁
        refine ⟨⟨new₂ ++ new₁, ?_⟩, ⟨("    " ++ p ++ " --> " ++ dep) :: (app₁ ++ app₂), ?_⟩⟩
        · rw [hnew₂, hnew₁]
          simp
        · rw [happ₂, happ₁]
          simp

theorem visitM_step (g : Graph) (root : String) :
    ∀ fuel,
      (∀ n s, n ∈ root :: allNodes g →
        mCompl g root s * (maxAdj g + 1) + 1 ≤ fuel →
        visitMNode g (fuel + 1) n s = visitMNode g fuel n s) ∧
      (∀ p deps s, (∀ d ∈ deps, d ∈ root :: allNodes g) →
        deps.length + mCompl g root s * (maxAdj g + 1) + 1 ≤ fuel →
        visitMDeps g (fuel + 1) p deps s = visitMDeps g fuel p deps s) := by
  intro fuel
  induction fuel with
  | zero =>
    constructor
    · intro n s _ hb; omega
    · intro p deps s _ hb; omega
  | succ fuel ih =>
    obtain ⟨ihN, ihD⟩ := ih
    constructor
    · intro n s hU hb
      by_cases hv : n ∈ s.visited
      · simp only [visitMNode, if_pos hv]
      · simp only [visitMNode, if_neg hv]
        apply ihD
        · intro d hd
          exact List.mem_cons_of_mem _ (get_sub_allNodes hd)
        · have hUf : n ∈ (root :: allNodes g).toFinset := by
            rw [List.mem_toFinset]; exact hU
          have hc := mCompl_cons g root s n s.lines hUf hv
          have hA := get_length_le_maxAdj g n
          have hmul : mCompl g root s * (maxAdj g + 1) =
              mCompl g root ⟨n :: s.visited, s.lines⟩ * (maxAdj g + 1) +
                (maxAdj g + 1) := by
            rw [← hc]; ring
          omega
    · rintro p (_ | ⟨dep, rest⟩) s hsub hb
      · simp only [visitMDeps]
      · simp only [visitMDeps]
        have hceq : mCompl g root ⟨s.visited,
            s.lines ++ ["    " ++ p ++ " --> " ++ dep]⟩ = mCompl g root s := rfl
        have hnode : visitMNode g (fuel + 1) dep
            ⟨s.visited, s.lines ++ ["    " ++ p ++ " --> " ++ dep]⟩ =
            visitMNode g fuel dep
            ⟨s.visited, s.lines ++ ["    " ++ p ++ " --> " ++ dep]⟩ := by
          apply ihN dep _ (hsub dep (List.mem_cons_self _ _))
          rw [hceq]
          simp only [List.length_cons] at hb
          omega
        rw [hnode]
        apply ihD p rest _ (fun d hd => hsub d (List.mem_cons_of_mem _ hd))
        have hmono : mCompl g root (visitMNode g fuel dep
            ⟨s.visited, s.lines ++ ["    " ++ p ++ " --> " ++ dep]⟩) ≤
            mCompl g root s := by
          obtain ⟨⟨new, hnew⟩, _⟩ := (visitM_mono g fuel).1 dep
            ⟨s.visited, s.lines ++ ["    " ++ p ++ " --> " ++ dep]⟩
          apply mCompl_mono
          intro x hx
          rw [hnew]
          exact List.mem_append_right _ hx
        have hmle : mCompl g root (visitMNode g fuel dep
            ⟨s.visited, s.lines ++ ["    " ++ p ++ " --> " ++ dep]⟩) *
            (maxAdj g + 1) ≤ mCompl g root s * (maxAdj g + 1) :=
          Nat.mul_le_mul_right _ hmono
        simp only [List.length_cons] at hb
        omega

theorem mCompl_le_card (g : Graph) (root : String) (s : MState) :
    mCompl g root s ≤ (root :: allNodes g).toFinset.card :=
  Finset.card_le_card (Finset.sdiff_subset)

theorem visitMNode_stab (g : Graph) (root n : String) (s : MState)
    (hU : n ∈ root :: allNodes g) :
    ∀ fuel, mFuel g root ≤ fuel →
      visitMNode g fuel n s = visitMNode g (mFuel g root) n s := by
  intro fuel hle
  obtain ⟨k, rfl⟩ := Nat.exists_eq_add_of_le hle
  induction k with
  | zero => rfl
  | succ k ih =>
    have heq : mFuel g root + (k + 1) = (mFuel g root + k) + 1 := by ring
    rw [heq]
    rw [(visitM_step g root (mFuel g root + k)).1 n s hU ?_]
    · exact ih (Nat.le_add_right _ _)
    · have h1 : mCompl g root s ≤ (root :: allNodes g).toFinset.card :=
        mCompl_le_card g root s
      have h2 : mCompl g root s * (maxAdj g + 1) ≤
          (root :: allNodes g).toFinset.card * (maxAdj g + 1) :=
        Nat.mul_le_mul_right _ h1
      unfold mFuel
      omega

theorem visitM_count (g : Graph) (root : String) :
    ∀ fuel,
      (∀ n s, n ∈ root :: allNodes g →
        mCompl g root s * (maxAdj g + 1) + 1 ≤ fuel →
        ∃ new, (visitMNode g fuel n s).visited = new ++ s.visited ∧
          new.Nodup ∧ (∀ x ∈ new, x ∉ s.visited) ∧
          (visitMNode g fuel n s).lines.length =
            s.lines.length + (new.map (fun m => (Graph.get g m).length)).sum) ∧
      (∀ p deps s, (∀ d ∈ deps, d ∈ root :: allNodes g) →
        deps.length + mCompl g root s * (maxAdj g + 1) + 1 ≤ fuel →
        ∃ new, (visitMDeps g fuel p deps s).visited = new ++ s.visited ∧
          new.Nodup ∧ (∀ x ∈ new, x ∉ s.visited) ∧
          (visitMDeps g fuel p deps s).lines.length =
            s.lines.length + deps.length +
              (new.map (fun m => (Graph.get g m).length)).sum) := by
  intro fuel
  induction fuel with
  | zero =>
    constructor
    · intro n s _ hb; omega
    · intro p deps s _ hb; omega
  | succ fuel ih =>
    obtain ⟨ihN, ihD⟩ := ih
    constructor
    · intro n s hU hb
      by_cases hv : n ∈ s.visited
      · refine ⟨[], ?_, ?_, ?_, ?_⟩ <;> simp [visitMNode, hv]
      · simp only [visitMNode, if_neg hv]
        have hUf : n ∈ (root :: allNodes g).toFinset := by
          rw [List.mem_toFinset]; exact hU
        have hc := mCompl_cons g root s n s.lines hUf hv
        have hA := get_length_le_maxAdj g n
        have hb' : (Graph.get g n).length +
            mCompl g root ⟨n :: s.visited, s.lines⟩ * (maxAdj g + 1) + 1 ≤ fuel := by
          have hmul : mCompl g root s * (maxAdj g + 1) =
              mCompl g root ⟨n :: s.visited, s.lines⟩ * (maxAdj g + 1) +
                (maxAdj g + 1) := by
            rw [← hc]; ring
          omega
        obtain ⟨new₁, hvis, hnd, hdisj, hlen⟩ := ihD n (Graph.get g n)
          ⟨n :: s.visited, s.lines⟩
          (fun d hd => List.mem_cons_of_mem _ (get_sub_allNodes hd)) hb'
        dsimp only at hvis hdisj hlen
        refine ⟨new₁ ++ [n], ?_, ?_, ?_, ?_⟩
        · rw [hvis]; simp
        · rw [List.nodup_append]
          refine ⟨hnd, List.nodup_singleton n, ?_⟩
          intro x hx hx'
          have hxn : x = n := by simpa using hx'
          exact hdisj x hx (by rw [hxn]; exact List.mem_cons_self _ _)
        · intro x hx
          rcases List.mem_append.mp hx with h1 | h1
          · exact fun hc' => hdisj x h1 (List.mem_cons_of_mem _ hc')
          · have hxn : x = n := by simpa using h1
            rw [hxn]; exact hv
        · rw [hlen]
          simp only [List.map_append, List.map_cons, List.map_nil, List.sum_append,
            List.sum_cons, List.sum_nil]
          ring
    · rintro p (_ | ⟨dep, rest⟩) s hsub hb
      · refine ⟨[], ?_, ?_, ?_, ?_⟩ <;> simp [visitMDeps]
      · simp only [visitMDeps]
        have hceq : mCompl g root ⟨s.visited,
            s.lines ++ ["    " ++ p ++ " --> " ++ dep]⟩ = mCompl g root s := rfl
        have hb₁ : mCompl g root ⟨s.visited,
            s.lines ++ ["    " ++ p ++ " --> " ++ dep]⟩ * (maxAdj g + 1) + 1 ≤ fuel := by
          rw [hceq]
          simp only [List.length_cons] at hb
          omega
        obtain ⟨new₂, hvis₂, hnd₂, hdisj₂, hlen₂⟩ := ihN dep
          ⟨s.visited, s.lines ++ ["    " ++ p ++ " --> " ++ dep]⟩
          (hsub dep (List.mem_cons_self _ _)) hb₁
        dsimp only at hvis₂ hdisj₂ hlen₂
        set s₂ := visitMNode g fuel dep
          ⟨s.visited, s.lines ++ ["    " ++ p ++ " --> " ++ dep]⟩ with hs₂
        have hb₂ : rest.length + mCompl g root s₂ * (maxAdj g + 1) + 1 ≤ fuel := by
          have hmono : mCompl g root s₂ ≤ mCompl g root s := by
            apply mCompl_mono
            intro x hx
            rw [hvis₂]
            exact List.mem_append_right _ hx
          have hmle : mCompl g root s₂ * (maxAdj g + 1) ≤
              mCompl g root s * (maxAdj g + 1) := Nat.mul_le_mul_right _ hmono
          simp only [List.length_cons] at hb
          omega
        obtain ⟨new₃, hvis₃, hnd₃, hdisj₃, hlen₃⟩ := ihD p rest s₂
          (fun d hd => hsub d (List.mem_cons_of_mem _ hd)) hb₂
        refine ⟨new₃ ++ new₂, ?_, ?_, ?_, ?_⟩
        · rw [hvis₃, hvis₂]; simp
        · rw [List.nodup_append]
          refine ⟨hnd₃, hnd₂, ?_⟩
          intro x hx hx'
          refine hdisj₃ x hx ?_
          rw [hvis₂]
          exact List.mem_append_left _ hx'
        · intro x hx
          rcases List.mem_append.mp hx with h1 | h1
          · intro hc'
            exact hdisj₃ x h1 (by rw [hvis₂]; exact List.mem_append_right _ hc')
          · exact hdisj₂ x h1
        · rw [hlen₃, hlen₂]
          simp only [List.length_append, List.length_cons, List.map_append,
            List.sum_append, List.length_nil]
          ring

theorem visitM_closed (g : Graph) (root : String) :
    ∀ fuel,
      (∀ n s, n ∈ root :: allNodes g →
        mCompl g root s * (maxAdj g + 1) + 1 ≤ fuel →
        n ∈ (visitMNode g fuel n s).visited ∧
        (∀ m, m ∈ (visitMNode g fuel n s).visited → m ∉ s.visited →
          ∀ d ∈ Graph.get g m, d ∈ (visitMNode g fuel n s).visited)) ∧
      (∀ p deps s, (∀ d ∈ deps, d ∈ root :: allNodes g) →
        deps.length + mCompl g root s * (maxAdj g + 1) + 1 ≤ fuel →
        (∀ d ∈ deps, d ∈ (visitMDeps g fuel p deps s).visited) ∧
        (∀ m, m ∈ (visitMDeps g fuel p deps s).visited → m ∉ s.visited →
          ∀ d ∈ Graph.get g m, d ∈ (visitMDeps g fuel p deps s).visited)) := by
  intro fuel
  induction fuel with
  | zero =>
    constructor
    · intro n s _ hb; omega
    · intro p deps s _ hb; omega
  | succ fuel ih =>
    obtain ⟨ihN, ihD⟩ := ih
    constructor
    · intro n s hU hb
      by_cases hv : n ∈ s.visited
      · simp only [visitMNode, if_pos hv]
        exact ⟨hv, fun m hm hm' _ _ => absurd hm hm'⟩
      · simp only [visitMNode, if_neg hv]
        have hUf : n ∈ (root :: allNodes g).toFinset := by
          rw [List.mem_toFinset]; exact hU
        have hc := mCompl_cons g root s n s.lines hUf hv
        have hA := get_length_le_maxAdj g n
        have hb' : (Graph.get g n).length +
            mCompl g root ⟨n :: s.visited, s.lines⟩ * (maxAdj g + 1) + 1 ≤ fuel := by
          have hmul : mCompl g root s * (maxAdj g + 1) =
              mCompl g root ⟨n :: s.visited, s.lines⟩ * (maxAdj g + 1) +
                (maxAdj g + 1) := by
            rw [← hc]; ring
          omega
        have hsubd : ∀ d ∈ Graph.get g n, d ∈ root :: allNodes g :=
          fun d hd => List.mem_cons_of_mem _ (get_sub_allNodes hd)
        obtain ⟨hdeps, hcl⟩ := ihD n (Graph.get g n) ⟨n :: s.visited, s.lines⟩ hsubd hb'
        obtain ⟨⟨new, hnew⟩, _⟩ := (visitM_mono g fuel).2 n (Graph.get g n)
          ⟨n :: s.visited, s.lines⟩
        dsimp only at hnew
        have hnin : n ∈ (visitMDeps g fuel n (Graph.get g n)
            ⟨n :: s.visited, s.lines⟩).visited := by
          rw [hnew]
          exact List.mem_append_right _ (List.mem_cons_self _ _)
        refine ⟨hnin, ?_⟩
        intro m hm hm' d hd
        by_cases hmn : m = n
        · rw [hmn] at hd
          exact hdeps d hd
        · refine hcl m hm ?_ d hd
          dsimp only
          intro hcm
          rcases List.mem_cons.mp hcm with h1 | h1
          · exact hmn h1
          · exact hm' h1
    · rintro p (_ | ⟨dep, rest⟩) s hsub hb
      · simp only [visitMDeps]
        exact ⟨fun d hd => absurd hd (List.not_mem_nil _),
          fun m hm hm' _ _ => absurd hm hm'⟩
      · simp only [visitMDeps]
        have hceq : mCompl g root ⟨s.visited,
            s.lines ++ ["    " ++ p ++ " --> " ++ dep]⟩ = mCompl g root s := rfl
        have hb₁ : mCompl g root ⟨s.visited,
            s.lines ++ ["    " ++ p ++ " --> " ++ dep]⟩ * (maxAdj g + 1) + 1 ≤ fuel := by
          rw [hceq]
          simp only [List.length_cons] at hb
          omega
        obtain ⟨hdin, hclN⟩ := ihN dep
          ⟨s.visited, s.lines ++ ["    " ++ p ++ " --> " ++ dep]⟩
          (hsub dep (List.mem_cons_self _ _)) hb₁
        set s₂ := visitMNode g fuel dep
          ⟨s.visited, s.lines ++ ["    " ++ p ++ " --> " ++ dep]⟩ with hs₂
        obtain ⟨⟨new₂, hvis₂⟩, _⟩ := (visitM_mono g fuel).1 dep
          ⟨s.visited, s.lines ++ ["    " ++ p ++ " --> " ++ dep]⟩
        dsimp only at hvis₂
        have hb₂ : rest.length + mCompl g root s₂ * (maxAdj g + 1) + 1 ≤ fuel := by
          have hmono : mCompl g root s₂ ≤ mCompl g root s := by
            apply mCompl_mono
            intro x hx
            rw [hs₂, hvis₂]
            exact List.mem_append_right _ hx
          have hmle : mCompl g root s₂ * (maxAdj g + 1) ≤
              mCompl g root s * (maxAdj g + 1) := Nat.mul_le_mul_right _ hmono
          simp only [List.length_cons] at hb
          omega
        obtain ⟨hdrest, hclD⟩ := ihD p rest s₂
          (fun d hd => hsub d (List.mem_cons_of_mem _ hd)) hb₂
        obtain ⟨⟨new₃, hvis₃⟩, _⟩ := (visitM_mono g fuel).2 p rest s₂
        constructor
        · intro d hd
          rcases List.mem_cons.mp hd with h1 | h1
          · rw [h1, hvis₃]
            exact List.mem_append_right _ hdin
          · exact hdrest d h1
        · intro m hm hm' d hd
          by_cases hms₂ : m ∈ s₂.visited
          · have hms₁ : m ∉ (MState.mk s.visited
                (s.lines ++ ["    " ++ p ++ " --> " ++ dep])).visited := hm'
            have := hclN m hms₂ hms₁ d hd
            rw [hvis₃]
            exact List.mem_append_right _ this
          · exact hclD m hm hms₂ d hd

theorem visitM_sound (g : Graph) :
    ∀ fuel,
      (∀ n s m, m ∈ (visitMNode g fuel n s).visited →
        m ∈ s.visited ∨ Reach g n m) ∧
      (∀ p deps s m, m ∈ (visitMDeps g fuel p deps s).visited →
        m ∈ s.visited ∨ ∃ d ∈ deps, Reach g d m) := by
  intro fuel
  induction fuel with
  | zero =>
    constructor
    · intro n s m hm
      exact Or.inl (by simpa [visitMNode] using hm)
    · intro p deps s m hm
      exact Or.inl (by simpa [visitMDeps] using hm)
  | succ fuel ih =>
    obtain ⟨ihN, ihD⟩ := ih
    constructor
    · intro n s m hm
      by_cases hv : n ∈ s.visited
      · simp only [visitMNode, if_pos hv] at hm
        exact Or.inl hm
      · simp only [visitMNode, if_neg hv] at hm
        rcases ihD n (Graph.get g n) ⟨n :: s.visited, s.lines⟩ m hm with h1 | ⟨d, hd, hr⟩
        · dsimp only at h1
          rcases List.mem_cons.mp h1 with h2 | h2
          · exact Or.inr (by rw [h2]; exact Reach.refl n)
          · exact Or.inl h2
        · exact Or.inr (reach_trans (Reach.tail (Reach.refl n) hd) hr)
    · rintro p (_ | ⟨dep, rest⟩) s m hm
      · simp only [visitMDeps] at hm
        exact Or.inl hm
      · simp only [visitMDeps] at hm
        rcases ihD p rest _ m hm with h1 | ⟨d, hd, hr⟩
        · rcases ihN dep ⟨s.visited, s.lines ++ ["    " ++ p ++ " --> " ++ dep]⟩
              m h1 with h2 | h2
          · exact Or.inl h2
          · exact Or.inr ⟨dep, List.mem_cons_self _ _, h2⟩
        · exact Or.inr ⟨d, List.mem_cons_of_mem _ hd, hr⟩

theorem mFuel_bound (g : Graph) (root : String) (s : MState) :
    mCompl g root s * (maxAdj g + 1) + 1 ≤ mFuel g root := by
  have h1 : mCompl g root s ≤ (root :: allNodes g).toFinset.card :=
    mCompl_le_card g root s
  have h2 : mCompl g root s * (maxAdj g + 1) ≤
      (root :: allNodes g).toFinset.card * (maxAdj g + 1) :=
    Nat.mul_le_mul_right _ h1
  unfold mFuel
  omega

theorem mermaid_main (g : Graph) (root : String) :
    (mermaidRun g root).visited.Nodup ∧
    (∀ n, n ∈ (mermaidRun g root).visited ↔ Reach g root n) ∧
    (mermaidLines g root).length = 1 +
      ((mermaidRun g root).visited.map (fun n => (Graph.get g n).length)).sum := by
  have hU : root ∈ root :: allNodes g := List.mem_cons_self _ _
  have hb := mFuel_bound g root ⟨[], ["graph TD"]⟩
  obtain ⟨new, hvis, hnd, _, hlen⟩ :=
    (visitM_count g root (mFuel g root)).1 root ⟨[], ["graph TD"]⟩ hU hb
  have hveq : (mermaidRun g root).visited = new := by
    unfold mermaidRun
    rw [hvis]
    simp
  obtain ⟨hin, hcl⟩ := (visitM_closed g root (mFuel g root)).1 root
    ⟨[], ["graph TD"]⟩ hU hb
  refine ⟨by rw [hveq]; exact hnd, ?_, ?_⟩
  · intro n
    constructor
    · intro hn
      rcases (visitM_sound g (mFuel g root)).1 root ⟨[], ["graph TD"]⟩ n hn
        with h1 | h1
      · simp at h1
      · exact h1
    · intro hr
      induction hr with
      | refl => exact hin
      | tail hp hmem ih =>
        exact hcl _ ih (by simp) _ hmem
  · unfold mermaidLines mermaidRun
    unfold mermaidRun at hveq
    rw [hlen, hveq]
    simp

theorem visitMDeps_nil (g : Graph) (fuel : Nat) (p : String) (s : MState) :
    visitMDeps g fuel p [] s = s := by
  cases fuel <;> simp [visitMDeps]

theorem bfsIAux_nil (g : Graph) (maxD : Nat) (filt : String) (fuel : Nat)
    (v : List String) : bfsIAux g maxD filt fuel [] v = ⟨[], v, []⟩ := by
  cases fuel <;> simp [bfsIAux]

theorem mermaid_isolated (g : Graph) (root : String)
    (h : List.lookup root g = none) :
    mermaidRun g root = ⟨[root], ["graph TD"]⟩ := by
  unfold mermaidRun
  have hpos : mFuel g root = (mFuel g root - 1) + 1 := by
    unfold mFuel; omega
  rw [hpos]
  have hget : Graph.get g root = [] := by
    unfold Graph.get; rw [h]; rfl
  simp only [visitMNode, List.not_mem_nil, if_false, hget, visitMDeps_nil]

theorem bfs_isolated (g : Graph) (s : String) (maxD : Nat)
    (h : List.lookup s g = none) :
    bfsRun g s maxD "" = ⟨[(s, 0)], [s], [(s, 0)]⟩ := by
  unfold bfsRun
  have hpos : bfsFuel g = (bfsFuel g - 1) + 1 := by
    unfold bfsFuel; omega
  rw [hpos]
  have hget : Graph.get g s = [] := by
    unfold Graph.get; rw [h]; rfl
  have hnf : ¬ Filtered "" s := by
    intro hc
    exact hc.1 rfl
  simp only [bfsIAux, List.not_mem_nil, if_false, if_neg hnf, hget, List.map_nil,
    List.append_nil, List.nil_append]
  have hnext : (if maxD ≤ 0 then ([] : List (String × Nat)) else []) = [] := by
    split <;> rfl
  rw [hnext, bfsIAux_nil]

/-! ## Substring characterization and remaining helpers -/

theorem leadsWith_iff (sub s : List Char) :
    leadsWith sub s = true ↔ ∃ t, s = sub ++ t := by
  induction sub generalizing s with
  | nil => simp [leadsWith]
  | cons a as ih =>
    cases s with
    | nil =>
      simp only [leadsWith]
      constructor
      · intro h; cases h
      · rintro ⟨t, ht⟩; cases ht
    | cons b bs =>
      simp only [leadsWith, Bool.and_eq_true, decide_eq_true_eq, ih]
      constructor
      · rintro ⟨rfl, t, rfl⟩
        exact ⟨t, rfl⟩
      · rintro ⟨t, ht⟩
        rw [List.cons_append] at ht
        injection ht with h1 h2
        exact ⟨h1.symm, t, h2⟩

theorem occursIn_iff (sub s : List Char) :
    occursIn sub s = true ↔ ∃ l₁ l₂, s = l₁ ++ sub ++ l₂ := by
  induction s with
  | nil =>
    simp only [occursIn, leadsWith_iff]
    constructor
    · rintro ⟨t, ht⟩
      exact ⟨[], t, by simpa using ht⟩
    · rintro ⟨l₁, l₂, h⟩
      obtain ⟨h1, h2⟩ := List.append_eq_nil.mp h.symm
      obtain ⟨h3, h4⟩ := List.append_eq_nil.mp h1
      exact ⟨[], by rw [h4]; simp⟩
  | cons c cs ih =>
    simp only [occursIn, Bool.or_eq_true, leadsWith_iff, ih]
    constructor
    · rintro (⟨t, ht⟩ | ⟨l₁, l₂, h⟩)
      · exact ⟨[], t, by simpa using ht⟩
      · exact ⟨c :: l₁, l₂, by rw [h]; simp⟩
    · rintro ⟨l₁, l₂, h⟩
      cases l₁ with
      | nil =>
        exact Or.inl ⟨l₂, by simpa using h⟩
      | cons x xs =>
        right
        rw [List.cons_append, List.cons_append] at h
        injection h with h1 h2
        exact ⟨xs, l₂, h2⟩

theorem reach_subset_closed (g : Graph) (S : List String)
    (hcl : ∀ m ∈ S, ∀ d ∈ Graph.get g m, d ∈ S) {a b : String}
    (ha : a ∈ S) (hr : Reach g a b) : b ∈ S := by
  induction hr with
  | refl => exact ha
  | tail _ hmem ih => exact hcl _ ih _ hmem

theorem bfs_term (g : Graph) (s : String) (maxD : Nat) (filt : String) :
    ∀ fuel, bfsFuel g ≤ fuel →
      bfsIAux g maxD filt fuel [(s, 0)] [] = bfsRun g s maxD filt := by
  intro fuel hle
  exact bfsIAux_stab g maxD filt (bfsFuel g) [(s, 0)] []
    (le_of_lt (bfsMu_init_lt g s)) fuel hle

theorem bfs_prune_top (g : Graph) (s : String) (maxD : Nat) (filt : String)
    (n : String)
    (hres : ∀ d, (n, d) ∈ bfs_dependencies g s maxD filt → maxD ≤ d) :
    bfsRun g s maxD filt = bfsRun (dictSet g n []) s maxD filt := by
  set g' := dictSet g n [] with hg'
  have hag : ∀ m, m ≠ n → Graph.get g m = Graph.get g' m := by
    intro m hm
    unfold Graph.get
    rw [hg', dictSet_lookup_other g n m [] hm]
  set F := bfsFuel g + bfsFuel g' with hF
  have h1 : bfsIAux g maxD filt F [(s, 0)] [] = bfsRun g s maxD filt :=
    bfs_term g s maxD filt F (by omega)
  have h2 : bfsIAux g' maxD filt F [(s, 0)] [] = bfsRun g' s maxD filt :=
    bfs_term g' s maxD filt F (by rw [hF]; omega)
  have h3 : bfsIAux g maxD filt F [(s, 0)] [] = bfsIAux g' maxD filt F [(s, 0)] [] := by
    apply bfs_prune_aux g g' maxD filt n hag
    intro d hd
    apply hres d
    unfold bfs_dependencies
    rw [← h1]
    exact hd
  rw [← h1, h3, h2]

theorem nodup_fst_eq {l : List (String × Nat)} (h : (l.map Prod.fst).Nodup)
    {a : String} {b c : Nat} (hb : (a, b) ∈ l) (hc : (a, c) ∈ l) : b = c := by
  induction l with
  | nil => simp at hb
  | cons x t ih =>
    simp only [List.map_cons, List.nodup_cons] at h
    rcases List.mem_cons.mp hb with h1 | h1 <;>
      rcases List.mem_cons.mp hc with h2 | h2
    · rw [← h2] at h1
      rw [Prod.mk.injEq] at h1
      exact h1.2
    · exfalso
      apply h.1
      rw [show x.1 = a from by rw [← h1]]
      exact List.mem_map.mpr ⟨(a, c), h2, rfl⟩
    · exfalso
      apply h.1
      rw [show x.1 = a from by rw [← h2]]
      exact List.mem_map.mpr ⟨(a, b), h1, rfl⟩
    · exact ih h.2 h1 h2

/-- The variant BFS run that marks filtered nodes visited (spec comparison
point for claim C2; the program itself is `bfsRun`). -/
def bfsMarkRun (g : Graph) (start : String) (maxDepth : Nat) (filt : String) :
    BfsOut :=
  bfsMarkAux g maxDepth filt (bfsFuel g) [(start, 0)] []

/-! ## Example graphs from the spec -/

/-- Example 1 of the spec: `{A: [B,C], B: [C], C: []}`. -/
def exG1 : Graph := [("A", ["B", "C"]), ("B", ["C"]), ("C", [])]

/-- Example 3 of the spec: `{A: [B], B: [A]}`. -/
def cycG : Graph := [("A", ["B"]), ("B", ["A"])]

/-- A cyclic graph in which the subtree `B → D` completes before the cycle
`A → C → A` closes. -/
def partG : Graph := [("A", ["B", "C"]), ("B", ["D"]), ("D", []), ("C", ["A"])]

/-- Example 4 of the spec: `{A: [B,B]}` (duplicate edge). -/
def dupG : Graph := [("A", ["B", "B"])]

/-- Graph exhibiting the depth-limit boundary: with `maxDepth = 1` and
filter `"F"`, node `FB` is dequeued at the limit but filtered away, and `D`,
an untaken dependency of `C`, still appears through the direct edge `A → D`. -/
def c5G : Graph := [("A", ["FB", "C", "D"]), ("C", ["D"])]

/-- Chain `A → B → C` used to exercise the depth limit. -/
def chainG : Graph := [("A", ["B"]), ("B", ["C"])]

theorem exG1_acyclic : AcyclicFrom exG1 "A" := by
  intro n hr hplus
  have hS : n ∈ ["A", "B", "C"] :=
    reach_subset_closed exG1 ["A", "B", "C"] (by decide) (by decide) hr
  obtain ⟨m, hm, hrm⟩ := hplus
  have hB : ∀ x, Reach exG1 "B" x → x ∈ ["B", "C"] := fun x hx =>
    reach_subset_closed exG1 ["B", "C"] (by decide) (by decide) hx
  have hC : ∀ x, Reach exG1 "C" x → x ∈ ["C"] := fun x hx =>
    reach_subset_closed exG1 ["C"] (by decide) (by decide) hx
  simp only [List.mem_cons, List.not_mem_nil, or_false] at hS
  rcases hS with rfl | rfl | rfl
  · have hget : Graph.get exG1 "A" = ["B", "C"] := by decide
    rw [hget] at hm
    rcases List.mem_cons.mp hm with rfl | hm'
    · have := hB "A" hrm
      simp at this
    · have hmc : m = "C" := by simpa using hm'
      rw [hmc] at hrm
      have := hC "A" hrm
      simp at this
  · have hget : Graph.get exG1 "B" = ["C"] := by decide
    rw [hget] at hm
    have hmc : m = "C" := by simpa using hm
    rw [hmc] at hrm
    have := hC "B" hrm
    simp at this
  · have hget : Graph.get exG1 "C" = [] := by decide
    rw [hget] at hm
    simp at hm

/-! ## The claims -/

/-- C1 (counterexample): on the graph `{A: [B,C], B: [C], C: []}` with start
`A` the Order Resolver returns `["A","B","C"]` with no cycle reported — not
`["C","B","A"]` as the claim states.  The source reverses the
dependency-first post-order list, so dependencies appear after their
dependents, and for the edge `A → B`, `B` does not precede `A`. -/
theorem c1_counterexample :
    topological_sort exG1 "A" = (["A", "B", "C"], none) ∧
    (["A", "B", "C"] : List String) ≠ ["C", "B", "A"] :=
  ⟨by decide, by decide⟩

/-- C1 (amended): for every graph and start node whose reachable subgraph is
acyclic, `topological_sort` reports no cycle and, for every edge `a → b` of
the reachable subgraph, `b` appears *after* `a` in the returned sequence
(the source reverses the dependency-first post-order, yielding a
dependent-first order); both endpoints occur in the output. -/
theorem c1_amended (g : Graph) (s : String) (hacy : AcyclicFrom g s) :
    (topological_sort g s).2 = none ∧
    ∀ a b, Reach g s a → b ∈ Graph.get g a →
      a ∈ (topological_sort g s).1 ∧ b ∈ (topological_sort g s).1 ∧
        Before (topological_sort g s).1 a b :=
  topological_sort_acyclic g s hacy

/-- Witness for the amended C1 at Example 1: the resolver reports no cycle
and `A` precedes its dependency `B` in the output. -/
theorem c1_amended_witness :
    (topological_sort exG1 "A").2 = none ∧
    Before (topological_sort exG1 "A").1 "A" "B" := by
  have h := c1_amended exG1 "A" exG1_acyclic
  exact ⟨h.1, (h.2 "A" "B" (Reach.refl "A") (by decide)).2.2⟩

/-- C2: a dequeued node matching the non-empty filter is discarded without
entering the visited set (no node containing the filter is ever in the
final visited set); the policy never changes the returned list — the run
equals the variant that does mark filtered nodes visited; the loop is
fuel-stable (terminates) on every finite graph; and on `{A:[B,B]}` with
filter `"B"` the filtered node `B` is dequeued and discarded twice yet
absent from the result. -/
theorem c2_filtered_skip (g : Graph) (s : String) (maxD : Nat)
    (filt : String) (hf : filt ≠ "") :
    (∀ n, pyIn filt n = true → n ∉ (bfsRun g s maxD filt).visited) ∧
    (bfsRun g s maxD filt).result = (bfsMarkRun g s maxD filt).result ∧
    (∀ fuel, bfsFuel g ≤ fuel →
      bfsIAux g maxD filt fuel [(s, 0)] [] = bfsRun g s maxD filt) ∧
    List.count ("B", 1) (bfsRun dupG "A" 1000 "B").dequeues = 2 ∧
    ("B", 1) ∉ (bfsRun dupG "A" 1000 "B").result := by
  refine ⟨?_, ?_, bfs_term g s maxD filt, by decide, by decide⟩
  · intro n hpy hmem
    unfold bfsRun at hmem
    rw [bfs_visited_iff] at hmem
    rcases hmem with h | h
    · simp at h
    · obtain ⟨⟨n', d⟩, hmem', heq⟩ := List.mem_map.mp h
      have huf := bfs_result_unfiltered g maxD filt (bfsFuel g) [(s, 0)] []
        (n', d) hmem'
      apply huf
      refine ⟨hf, ?_⟩
      show pyIn filt n' = true
      have hn : n' = n := heq
      rw [hn]
      exact hpy
  · exact bfs_mark_eq g maxD filt (bfsFuel g) [(s, 0)] [] []
      (fun x hx => hx) (fun x hx _ => absurd hx (List.not_mem_nil x))

/-- Witness for C2 at Example 1 with filter `"B"`. -/
theorem c2_witness :
    "B" ∉ (bfsRun exG1 "A" 1000 "B").visited ∧
    (bfsRun exG1 "A" 1000 "B").result = (bfsMarkRun exG1 "A" 1000 "B").result := by
  have h := c2_filtered_skip exG1 "A" 1000 "B" (by decide)
  exact ⟨h.1 "B" (by decide), h.2.1⟩

/-- C3: when `visit` raises a cycle error, `topological_sort` returns the
reversed partial post-order together with the node at which the cycle
closed; that node is still on the open recursion path; the returned list
contains exactly the fully completed (visited) nodes and no node that was
still on the open path at the moment of detection. -/
theorem c3_cycle_partial (g : Graph) (s c : String) (s' : TState)
    (h : visitT g (tFuel g s) [s] ⟨[], [], []⟩ = some (Except.error (c, s'))) :
    topological_sort g s = (s'.result.reverse, some c) ∧
    (∀ n, n ∈ s'.visited ↔ n ∈ s'.result) ∧
    (∀ n ∈ s'.temp, n ∉ s'.result) ∧ c ∈ s'.temp :=
  topological_sort_cycle_state g s c s' h

/-- Witness for C3: `{A:[B], B:[A]}` reports a cycle at `A` and returns `[]`;
in the richer graph the completed subtree `{B, D}` survives in the output
while the open path node `A` does not. -/
theorem c3_cycle_witness :
    topological_sort cycG "A" = ([], some "A") ∧
    topological_sort partG "A" = (["B", "D"], some "A") ∧
    "A" ∉ (["D", "B"] : List String) := by
  have h1 := c3_cycle_partial cycG "A" "A" ⟨["B", "A"], [], []⟩ rfl
  have h2 := c3_cycle_partial partG "A" "A" ⟨["C", "A"], ["B", "D"], ["D", "B"]⟩ rfl
  refine ⟨?_, ?_, ?_⟩
  · simpa using h1.1
  · simpa using h2.1
  · exact h2.2.2.1 "A" (by decide)

/-- C4: the diagram line list always consists of the header plus exactly one
edge line per adjacency-list entry of each node reachable from the root;
the generation is fuel-stable (terminates) on every finite graph, cyclic
ones included; and the duplicate-edge graph `{A:[B,B]}` yields exactly two
`A --> B` lines. -/
theorem c4_mermaid (g : Graph) (root : String) :
    (∃ V : List String, V.Nodup ∧ (∀ n, n ∈ V ↔ Reach g root n) ∧
      (mermaidLines g root).length = 1 +
        (V.map (fun n => (Graph.get g n).length)).sum) ∧
    (∀ fuel, mFuel g root ≤ fuel →
      visitMNode g fuel root ⟨[], ["graph TD"]⟩ = mermaidRun g root) ∧
    List.count "    A --> B" (mermaidLines dupG "A") = 2 ∧
    mermaidLines dupG "A" = ["graph TD", "    A --> B", "    A --> B"] := by
  obtain ⟨hnd, hiff, hlen⟩ := mermaid_main g root
  refine ⟨⟨(mermaidRun g root).visited, hnd, hiff, hlen⟩, ?_, by decide, by decide⟩
  intro fuel hle
  exact visitMNode_stab g root root ⟨[], ["graph TD"]⟩
    (List.mem_cons_self _ _) fuel hle

/-- Witness for C4 on the duplicate-edge graph: extra fuel does not change
the run, and the two duplicate edge lines are counted. -/
theorem c4_mermaid_witness :
    visitMNode dupG (mFuel dupG "A" + 3) "A" ⟨[], ["graph TD"]⟩ =
      mermaidRun dupG "A" ∧
    List.count "    A --> B" (mermaidLines dupG "A") = 2 := by
  have h := c4_mermaid dupG "A"
  exact ⟨h.2.1 (mFuel dupG "A" + 3) (by omega), h.2.2.1⟩

/-- C5 (counterexample): with graph `{A:[FB,C,D], C:[D]}`, `maxDepth = 1` and
filter `"F"`, the node `FB` is dequeued at depth `maxDepth` yet is *not*
included in the result (the filter discards it regardless of depth), and
`D` — an untaken dependency of `C`, which was processed at depth
`maxDepth` — *does* appear in the output through the direct edge `A → D`:
both the unconditional "included in the result" part and the "none of its
untaken dependencies appear in the output" part of the claim fail here. -/
theorem c5_counterexample :
    ("FB", 1) ∈ (bfsRun c5G "A" 1 "F").dequeues ∧
    "FB" ∉ (bfs_dependencies c5G "A" 1 "F").map Prod.fst ∧
    ("C", 1) ∈ bfs_dependencies c5G "A" 1 "F" ∧
    "D" ∈ Graph.get c5G "C" ∧
    "D" ∈ (bfs_dependencies c5G "A" 1 "F").map Prod.fst :=
  ⟨by decide, by decide, by decide, by decide, by decide⟩

/-- C5 (amended): a node dequeued at depth `maxDepth` that the filter does
not match is included in the result; dependencies of a node emitted at depth
≥ `maxDepth` are never enqueued from it — emptying its adjacency list leaves
the entire run (result, visited set and dequeue trace) unchanged; and every
output entry other than the start arises as a dependency of some node
emitted at depth < `maxDepth`, so an untaken dependency appears in the
output only when it is reachable that way. -/
theorem c5_amended (g : Graph) (s : String) (maxD : Nat) (filt : String) :
    (∀ n, (n, maxD) ∈ (bfsRun g s maxD filt).dequeues → ¬ Filtered filt n →
      n ∈ (bfs_dependencies g s maxD filt).map Prod.fst) ∧
    (∀ n d, (n, d) ∈ bfs_dependencies g s maxD filt → maxD ≤ d →
      bfsRun g s maxD filt = bfsRun (dictSet g n []) s maxD filt) ∧
    (∀ n d, (n, d) ∈ bfs_dependencies g s maxD filt →
      (n = s ∧ d = 0) ∨ ∃ p dp, (p, dp) ∈ bfs_dependencies g s maxD filt ∧
        dp < maxD ∧ n ∈ Graph.get g p ∧ d = dp + 1) := by
  refine ⟨?_, ?_, ?_⟩
  · intro n hdq hnf
    have hvis := bfs_dequeued_visited g maxD filt (bfsFuel g) [(s, 0)] []
      (n, maxD) hdq hnf
    rw [bfs_visited_iff] at hvis
    rcases hvis with h | h
    · simp at h
    · exact h
  · intro n d hmem hge
    apply bfs_prune_top g s maxD filt n
    intro d' hd'
    have hnd := (bfs_result_nodup g maxD filt (bfsFuel g) [(s, 0)] []).1
    have heq : d' = d := nodup_fst_eq hnd hd' hmem
    omega
  · intro n d hmem
    have hdq := bfs_result_sub_dequeues g maxD filt (bfsFuel g) [(s, 0)] []
      (n, d) hmem
    rcases bfs_parent g maxD filt (bfsFuel g) [(s, 0)] [] (n, d) hdq with
      h | ⟨a, ha, hlt, hm, he⟩
    · left
      have h' : (n, d) = (s, 0) := by simpa using h
      rw [Prod.mk.injEq] at h'
      exact h'
    · right
      exact ⟨a.1, a.2, ha, hlt, hm, he⟩

/-- Witness for the amended C5 on the chain `A → B → C` with `maxDepth = 1`:
`B` is dequeued at the limit and appears in the result, pruning `B`'s
adjacency list changes nothing, and `B`'s output entry is justified by `A`
at depth 0. -/
theorem c5_amended_witness :
    "B" ∈ (bfs_dependencies chainG "A" 1 "").map Prod.fst ∧
    bfsRun chainG "A" 1 "" = bfsRun (dictSet chainG "B" []) "A" 1 "" ∧
    (("B" = "A" ∧ (1 : Nat) = 0) ∨
      ∃ p dp, (p, dp) ∈ bfs_dependencies chainG "A" 1 "" ∧
        dp < 1 ∧ "B" ∈ Graph.get chainG p ∧ 1 = dp + 1) := by
  have h := c5_amended chainG "A" 1 ""
  exact ⟨h.1 "B" (by decide) (by decide), h.2.1 "B" 1 (by decide) (by decide),
    h.2.2 "B" 1 (by decide)⟩

/-- C6: every node in the traversal output is reachable from the start by a
directed path; every node reachable within `maxDepth` hops through
unfiltered nodes appears, at a depth not exceeding the path length; no node
appears twice; and a node that appears appears exactly once. -/
theorem c6_traverse (g : Graph) (s : String) :
    (∀ maxD filt n d, (n, d) ∈ bfs_dependencies g s maxD filt → Reach g s n) ∧
    (∀ maxD filt n k, FPath g filt s n k → k ≤ maxD →
      ∃ d ≤ k, (n, d) ∈ bfs_dependencies g s maxD filt) ∧
    (∀ maxD filt, ((bfs_dependencies g s maxD filt).map Prod.fst).Nodup) ∧
    (∀ maxD filt n d, (n, d) ∈ bfs_dependencies g s maxD filt →
      ((bfs_dependencies g s maxD filt).map Prod.fst).count n = 1) := by
  refine ⟨?_, ?_, ?_, ?_⟩
  · intro maxD filt n d hmem
    obtain ⟨m, e, hq, hr⟩ := bfs_sound g maxD filt (bfsFuel g) [(s, 0)] []
      (n, d) hmem
    have hms : m = s := by
      have h' := List.mem_singleton.mp hq
      rw [Prod.mk.injEq] at h'
      exact h'.1
    rw [← hms]
    exact hr
  · intro maxD filt n k hp hk
    exact bfs_complete g maxD filt s n k hp hk
  · intro maxD filt
    exact (bfs_result_nodup g maxD filt (bfsFuel g) [(s, 0)] []).1
  · intro maxD filt n d hmem
    exact List.count_eq_one_of_mem
      (bfs_result_nodup g maxD filt (bfsFuel g) [(s, 0)] []).1
      (List.mem_map.mpr ⟨(n, d), hmem, rfl⟩)

/-- Witness for C6 at Example 1: `C` is reachable, appears within one hop,
and appears exactly once. -/
theorem c6_traverse_witness :
    Reach exG1 "A" "C" ∧
    (∃ d ≤ 1, ("C", d) ∈ bfs_dependencies exG1 "A" 1000 "") ∧
    ((bfs_dependencies exG1 "A" 1000 "").map Prod.fst).count "C" = 1 := by
  have h := c6_traverse exG1 "A"
  refine ⟨h.1 1000 "" "C" 1 (by decide), ?_, h.2.2.2 1000 "" "C" 1 (by decide)⟩
  have hpath : FPath exG1 "" "A" "C" 1 :=
    FPath.step (FPath.refl "A" (by decide)) (by decide) (by decide)
  exact h.2.1 1000 "" "C" 1 hpath (by decide)

/-- C7: with a non-empty filter, no node identifier in the traversal result
contains the filter as a contiguous substring; on Example 1 with filter
`"B"` the traversal returns `[(A,0),(C,1)]`, excluding `B` and its subtree. -/
theorem c7_filter (g : Graph) (s : String) (maxD : Nat) (filt : String)
    (hf : filt ≠ "") :
    (∀ n d, (n, d) ∈ bfs_dependencies g s maxD filt →
      ¬ ∃ l₁ l₂, n.data = l₁ ++ filt.data ++ l₂) ∧
    bfs_dependencies exG1 "A" 1000 "B" = [("A", 0), ("C", 1)] := by
  refine ⟨?_, by decide⟩
  intro n d hmem hex
  have huf := bfs_result_unfiltered g maxD filt (bfsFuel g) [(s, 0)] []
    (n, d) hmem
  apply huf
  refine ⟨hf, ?_⟩
  show pyIn filt n = true
  unfold pyIn
  rw [occursIn_iff]
  exact hex

/-- Witness for C7: `C` survives the filter `"B"` and indeed does not contain
it. -/
theorem c7_filter_witness :
    (¬ ∃ l₁ l₂, ("C" : String).data = l₁ ++ ("B" : String).data ++ l₂) ∧
    bfs_dependencies exG1 "A" 1000 "B" = [("A", 0), ("C", 1)] := by
  have h := c7_filter exG1 "A" 1000 "B" (by decide)
  exact ⟨h.1 "C" 1 (by decide), h.2⟩

/-- C8 (counterexample): on the two lines `A: B` and `A: C` the loader
produces `{A: [C]}` — the later line *replaces* the earlier binding — while
repeated `AddEdge` with append semantics would accumulate `{A: [B, C]}`;
the two results differ. -/
theorem c8_counterexample :
    read_test_graph ["A: B", "A: C"] = [("A", ["C"])] ∧
    loadViaAddEdge ["A: B", "A: C"] = [("A", ["B", "C"])] ∧
    ([("A", ["C"])] : Graph) ≠ [("A", ["B", "C"])] :=
  ⟨by decide, by decide, by decide⟩

/-- C8 (amended): populating the Graph Store from the per-line edge-list
form follows last-line-wins dictionary assignment, not `AddEdge`
accumulation: a package's dependency list is exactly that of the *last*
parseable line for it (the earlier lines' dependencies are discarded, not
prepended), and a key exists for a source exactly when some parseable line
mentions it. -/
theorem c8_amended (lines : List String) (p : String) :
    List.lookup p (read_test_graph lines) =
      ((lines.filterMap parseLine).reverse.find? (fun e => e.1 = p)).map
        Prod.snd ∧
    (p ∈ keysList (read_test_graph lines) ↔
      p ∈ (lines.filterMap parseLine).map Prod.fst) := by
  have h1 : read_test_graph lines =
      (lines.filterMap parseLine).foldl (fun g e => dictSet g e.1 e.2) [] :=
    read_test_graph_eq_fold lines []
  constructor
  · rw [h1, lookup_fold_dictSet]
    cases hf : (lines.filterMap parseLine).reverse.find? (fun e => decide (e.1 = p)) with
    | some e => simp
    | none => simp [List.lookup]
  · rw [h1, keys_fold_dictSet]
    simp [keysList]

/-- C9: for a start node that is not a key of the graph and is referenced by
no adjacency-list entry, the traversal returns exactly `[(start, 0)]`, the
diagram generator visits only the start node and emits just the header line
(no further expansion), and neither operation signals any error. -/
theorem c9_isolated (g : Graph) (s : String) (maxD : Nat)
    (hkey : List.lookup s g = none)
    (href : s ∉ (g.map Prod.snd).flatten) :
    bfs_dependencies g s maxD "" = [(s, 0)] ∧
    (mermaidRun g s).visited = [s] ∧
    mermaidLines g s = ["graph TD"] := by
  refine ⟨?_, ?_, ?_⟩
  · unfold bfs_dependencies
    rw [bfs_isolated g s maxD hkey]
  · rw [mermaid_isolated g s hkey]
  · unfold mermaidLines
    rw [mermaid_isolated g s hkey]

/-- Witness for C9: node `X` absent from the graph `{A: [B]}`. -/
theorem c9_isolated_witness :
    bfs_dependencies [("A", ["B"])] "X" 1000 "" = [("X", 0)] ∧
    mermaidLines [("A", ["B"])] "X" = ["graph TD"] := by
  have h := c9_isolated [("A", ["B"])] "X" 1000 (by decide) (by decide)
  exact ⟨h.1, h.2.2⟩

/-- C10: the filter applies to the start node itself: when the non-empty
filter occurs in the start node's identifier, the traversal returns the
empty list, marks nothing visited, and dequeues only the start entry. -/
theorem c10_filtered_start (g : Graph) (s : String) (maxD : Nat)
    (filt : String) (hf : filt ≠ "") (hs : pyIn filt s = true) :
    bfs_dependencies g s maxD filt = [] ∧
    (bfsRun g s maxD filt).visited = [] ∧
    (bfsRun g s maxD filt).dequeues = [(s, 0)] := by
  have hrun : bfsRun g s maxD filt = ⟨[], [], [(s, 0)]⟩ := by
    unfold bfsRun
    have hpos : bfsFuel g = (bfsFuel g - 1) + 1 := by unfold bfsFuel; omega
    rw [hpos]
    have hfil : Filtered filt s := ⟨hf, hs⟩
    simp only [bfsIAux, if_neg (List.not_mem_nil s), if_pos hfil, bfsIAux_nil]
  refine ⟨?_, ?_, ?_⟩
  · unfold bfs_dependencies
    rw [hrun]
  · rw [hrun]
  · rw [hrun]

/-- Witness for C10: start `B` with filter `"B"` on Example 1. -/
theorem c10_filtered_start_witness :
    bfs_dependencies exG1 "B" 1000 "B" = [] ∧
    (bfsRun exG1 "B" 1000 "B").visited = [] := by
  have h := c10_filtered_start exG1 "B" 1000 "B" (by decide) (by decide)
  exact ⟨h.1, h.2.1⟩
